import Mathlib

/-!
Verification of the Glue42 context-synchronization and activity-lifecycle
layer surfaced by the Tick42/angular-example repository.

The repository ships the library surface as TypeScript declarations
(`lib/tick42-glue`, the typings file) together with an Angular service
(`src/app/glue/glue.service.ts`) that consumes it.  The executable parts of
the Angular service are embedded directly from the source; the context bus
and activity state machine, whose implementation is not in the repository,
are modelled from the specification (Delta Engine, Context Store,
Subscription Router, Activity Registry, Group/Attach Coordinator).
-/

namespace Contexts

mutual
/-- Modelled from the spec: a context value is an ordered mapping from string
keys to arbitrary nested values (numeric/string/boolean leaves or nested
mappings).  The implementation of the Context library is not in the
repository; `Value` and `Fields` embed the value-trees of spec section 3.
Explicit `null` never appears in a stored value-tree: the spec treats `null`
in an update payload as a tombstone (removal), see `UpdateData`. -/
inductive Value where
  | vInt (n : Int)
  | vStr (s : String)
  | vBool (b : Bool)
  | vObj (fs : Fields)
  deriving DecidableEq
inductive Fields where
  | nil
  | cons (k : String) (v : Value) (rest : Fields)
  deriving DecidableEq
end

/-- First binding of key `k` in an ordered mapping. -/
def Fields.lookup (k : String) : Fields → Option Value
  | .nil => none
  | .cons k0 v0 rest => if k0 = k then some v0 else Fields.lookup k rest

/-- Whether the mapping binds key `k`. -/
def Fields.hasKey (k : String) (fs : Fields) : Bool :=
  (fs.lookup k).isSome

/-- Keys of the mapping, in order. -/
def Fields.keys : Fields → List String
  | .nil => []
  | .cons k _ rest => k :: Fields.keys rest

/-- Set key `k` to `v`: replaces the first existing binding in place, or
appends the binding at the end when the key is absent (JS object update). -/
def Fields.set (fs : Fields) (k : String) (v : Value) : Fields :=
  match fs with
  | .nil => .cons k v .nil
  | .cons k0 v0 rest =>
    if k0 = k then .cons k0 v rest else .cons k0 v0 (Fields.set rest k v)

/-- Remove the first binding of key `k` (JS `delete obj[k]`). -/
def Fields.erase (fs : Fields) (k : String) : Fields :=
  match fs with
  | .nil => .nil
  | .cons k0 v0 rest =>
    if k0 = k then rest else .cons k0 v0 (Fields.erase rest k)

/-- Concatenation of two ordered mappings. -/
def Fields.append (fs gs : Fields) : Fields :=
  match fs with
  | .nil => gs
  | .cons k v rest => .cons k v (Fields.append rest gs)

/-- View of the mapping as a list of key/value pairs. -/
def Fields.toList : Fields → List (String × Value)
  | .nil => []
  | .cons k v rest => (k, v) :: Fields.toList rest

/-- Build an ordered mapping from a list of key/value pairs. -/
def mkFields : List (String × Value) → Fields
  | [] => .nil
  | (k, v) :: rest => .cons k v (mkFields rest)

mutual
/-- Well-formedness of a value-tree: every mapping (at every depth) binds
each key at most once. -/
def Value.wf : Value → Bool
  | .vObj fs => fs.wf
  | _ => true
def Fields.wf : Fields → Bool
  | .nil => true
  | .cons k v rest => !rest.hasKey k && v.wf && rest.wf
end

/-- Uniqueness of keys, stated on the key list. -/
def Fields.nodupKeys (fs : Fields) : Prop :=
  fs.keys.Nodup

/-- Modelled from the spec: `Glue42.Contexts.ContextDelta` (the typings file
declares the shape; the Delta Engine computing it is not in the repository).
`added`/`updated` are mappings, `removed` is an ordered sequence of
path-qualified removed keys (a path is represented as its list of keys, e.g.
the spec's "a.b" is `["a", "b"]`), and `reset` carries the full value when
the context was replaced wholesale. -/
structure ContextDelta where
  added : Fields
  updated : Fields
  removed : List (List String)
  reset : Option Fields
  deriving DecidableEq

/-- Modelled from the spec: the `added` component of `diff old new` — the
bindings of `new` whose keys are absent from `old`, taken wholesale. -/
def diffAdded (old new : Fields) : Fields :=
  match new with
  | .nil => .nil
  | .cons k v rest =>
    if old.hasKey k then diffAdded old rest
    else .cons k v (diffAdded old rest)

mutual
/-- Modelled from the spec: the per-key `updated` entry — when both the old
and the new value are nested mappings they are diffed by key, not replaced
wholesale, so a deep update produces a delta scoped to the changed leaf. -/
def updVal (oldV newV : Value) : Value :=
  match oldV, newV with
  | .vObj o, .vObj n => .vObj (Fields.append (diffAdded o n) (diffUpdated o n))
  | _, _ => newV
/-- Modelled from the spec: the `updated` component of `diff old new` — keys
present in both with a different value. -/
def diffUpdated (old new : Fields) : Fields :=
  match new with
  | .nil => .nil
  | .cons k v rest =>
    match old.lookup k with
    | some w => if w = v then diffUpdated old rest
                else .cons k (updVal w v) (diffUpdated old rest)
    | none => diffUpdated old rest
end

mutual
/-- Modelled from the spec: the nested removals contributed by one key whose
old and new values are both nested mappings. -/
def removedVal (oldV newV : Value) : List (List String) :=
  match oldV, newV with
  | .vObj o, .vObj n => diffRemoved o n
  | _, _ => []
/-- Modelled from the spec: the `removed` component of `diff old new` — keys
present in `old` and absent from `new` become singleton paths; keys whose
old and new values are both nested mappings contribute their nested removals
path-qualified under the key. -/
def diffRemoved (old new : Fields) : List (List String) :=
  match old with
  | .nil => []
  | .cons k v rest =>
    (match new.lookup k with
     | none => [[k]]
     | some w => (removedVal v w).map (fun p => k :: p))
    ++ diffRemoved rest new
end

/-- Modelled from the spec: `diff(old, new)` of the Delta Engine. -/
def diff (old new : Fields) : ContextDelta :=
  { added := diffAdded old new
    updated := diffUpdated old new
    removed := diffRemoved old new
    reset := none }

mutual
/-- Modelled from the spec: merging one delta value into a current value. A
nested-mapping delta value whose current value is also a nested mapping is
merged recursively; any other value replaces the current value. -/
def mergeVal (cur upd : Value) : Value :=
  match cur, upd with
  | .vObj co, .vObj uo => .vObj (mergeFields co uo)
  | _, _ => upd
/-- Modelled from the spec: merging a delta mapping into a current value,
entry by entry in delta order. -/
def mergeFields (cur upd : Fields) : Fields :=
  match upd with
  | .nil => cur
  | .cons k v rest =>
    mergeFields
      (match cur.lookup k with
       | some w => cur.set k (mergeVal w v)
       | none => cur.set k v)
      rest
end

/-- Modelled from the spec: removal of one path-qualified key. A singleton
path removes the key at this level; a longer path descends into the nested
mapping bound to its head key. -/
def removePath (fs : Fields) : List String → Fields
  | [] => fs
  | [k] => fs.erase k
  | k :: p =>
    match fs.lookup k with
    | some (.vObj o) => fs.set k (.vObj (removePath o p))
    | _ => fs

/-- Removal of an ordered sequence of paths, applied in order. -/
def removeAll (fs : Fields) (paths : List (List String)) : Fields :=
  paths.foldl removePath fs

/-- Modelled from the spec: `apply(value, delta)` of the Delta Engine. A
`reset` delta replaces the value wholesale; otherwise `added` and `updated`
are merged in and the `removed` paths are deleted. -/
def apply (v : Fields) (d : ContextDelta) : Fields :=
  match d.reset with
  | some r => r
  | none => removeAll (mergeFields (mergeFields v d.added) d.updated) d.removed

/-- Every key of `a` is also a key of `b`. -/
def keysIncl (a b : Fields) : Bool :=
  a.keys.all (fun k => b.hasKey k)

mutual
/-- Structural value-tree equality: mappings are compared by key, not by
binding order (JS deep equality of objects). -/
def Value.equiv : Value → Value → Bool
  | .vObj a, .vObj b => Fields.subsetF a b && keysIncl b a
  | v, w => v == w
/-- Every binding of the first mapping has a structurally equal binding in
the second. -/
def Fields.subsetF : Fields → Fields → Bool
  | .nil, _ => true
  | .cons k v rest, b =>
    (match b.lookup k with
     | some w => Value.equiv v w
     | none => false) && Fields.subsetF rest b
end

/-- Pointwise equivalence of optional values. -/
def OptEquiv : Option Value → Option Value → Bool
  | none, none => true
  | some v, some w => Value.equiv v w
  | _, _ => false

/-- Modelled from the spec: an update payload. A key mapped to `some v` sets
the key to `v` wholesale, a key mapped to `none` is the explicit `null`
tombstone that removes the key (the `updateContext` semantics of the spec
and of the typings file doc comments). -/
abbrev UpdateData := List (String × Option Value)

/-- Modelled from the spec: merging an update payload into a context value —
the payload properties replace the context properties, any other context
property remains, and an explicit `null` removes its key. -/
def mergeUpdate (cur : Fields) : UpdateData → Fields
  | [] => cur
  | (k, some v) :: rest => mergeUpdate (cur.set k v) rest
  | (k, none) :: rest => mergeUpdate (cur.erase k) rest

/-- Modelled from the spec: one named context of the Context Store — its
authoritative value and its monotonic version counter. -/
structure CtxRecord where
  value : Fields
  version : Nat
  deriving DecidableEq

/-- Modelled from the spec: the process-wide table of named contexts. -/
abbrev Store := List (String × CtxRecord)

/-- Record of the named context, if it has been created. -/
def storeGet (st : Store) (name : String) : Option CtxRecord :=
  match st with
  | [] => none
  | (n, r) :: rest => if n = name then some r else storeGet rest name

/-- Replace the record of the named context, creating it when absent. -/
def storeSet (st : Store) (name : String) (r : CtxRecord) : Store :=
  match st with
  | [] => [(name, r)]
  | (n, r0) :: rest =>
    if n = name then (n, r) :: rest else (n, r0) :: storeSet rest name r

/-- Modelled from the spec: `update(name, data)` of the Context Store —
merges the payload into the named context's current value (creating the
context with initial version 0 if absent), computes the delta via the Delta
Engine and bumps the version.  Returns the new store and the delta handed to
the Subscription Router. -/
def update (st : Store) (name : String) (data : UpdateData) :
    Store × ContextDelta :=
  let r0 := (storeGet st name).getD { value := .nil, version := 0 }
  let newVal := mergeUpdate r0.value data
  (storeSet st name { value := newVal, version := r0.version + 1 },
   diff r0.value newVal)

/-- Modelled from the spec: the synthetic delta delivered on `set` and to a
fresh subscriber — `reset` carries the full value, the partial components
are empty. -/
def resetDelta (v : Fields) : ContextDelta :=
  { added := .nil, updated := .nil, removed := [], reset := some v }

/-- Modelled from the spec: Context Store plus Subscription Router state.
`subs` keeps, per context name, the ordered subscriber handles (FIFO
registration order); `log` is the append-only sequence of deliveries made to
subscribers, in delivery order. -/
structure BusState where
  store : Store
  subs : List (String × List Nat)
  log : List (Nat × String × ContextDelta)
  deriving DecidableEq

/-- Ordered subscriber handles registered for the named context. -/
def getSubs (subs : List (String × List Nat)) (name : String) : List Nat :=
  match subs with
  | [] => []
  | (n, ss) :: rest => if n = name then ss else getSubs rest name

/-- Rewrite the subscriber list of the named context in place. -/
def setSubs (subs : List (String × List Nat)) (name : String)
    (ss : List Nat) : List (String × List Nat) :=
  match subs with
  | [] => [(name, ss)]
  | (n, ss0) :: rest =>
    if n = name then (n, ss) :: rest else (n, ss0) :: setSubs rest name ss

/-- Modelled from the spec: `subscribe(name, handler)` — registers the
handle and immediately delivers the current value as a synthetic reset
delta, so late joiners never start with a stale empty view. -/
def busSubscribe (st : BusState) (name : String) (sid : Nat) : BusState :=
  let cur := ((storeGet st.store name).getD { value := .nil, version := 0 }).value
  { store := st.store
    subs :=
      if (getSubs st.subs name).contains sid then st.subs
      else setSubs st.subs name (getSubs st.subs name ++ [sid])
    log := st.log ++ [(sid, name, resetDelta cur)] }

/-- Modelled from the spec: an `update` fanned out through the Subscription
Router — every registered subscriber receives the computed delta, in
registration order. -/
def busUpdate (st : BusState) (name : String) (data : UpdateData) : BusState :=
  let (store1, delta) := update st.store name data
  { store := store1
    subs := st.subs
    log := st.log ++ (getSubs st.subs name).map (fun sid => (sid, name, delta)) }

/-- Modelled from the spec: `set(name, full)` — replaces the value wholesale
and fans out a delta carrying `reset = full`. -/
def busSet (st : BusState) (name : String) (v : Fields) : BusState :=
  let r0 := (storeGet st.store name).getD { value := .nil, version := 0 }
  { store := storeSet st.store name { value := v, version := r0.version + 1 }
    subs := st.subs
    log := st.log ++ (getSubs st.subs name).map (fun sid => (sid, name, resetDelta v)) }

/-- Modelled from the spec: invoking the token returned by `subscribe` —
removes the handle from the named context's subscriber list; nothing is
delivered and nothing else changes. -/
def busUnsubscribe (st : BusState) (name : String) (sid : Nat) : BusState :=
  { store := st.store
    subs := setSubs st.subs name ((getSubs st.subs name).filter (fun x => x != sid))
    log := st.log }

/-- Operations an application can issue against the context bus. -/
inductive BusOp where
  | upd (name : String) (data : UpdateData)
  | setc (name : String) (v : Fields)
  | sub (name : String) (sid : Nat)
  | unsub (name : String) (sid : Nat)
  deriving DecidableEq

/-- One bus operation. -/
def busStep (st : BusState) : BusOp → BusState
  | .upd name data => busUpdate st name data
  | .setc name v => busSet st name v
  | .sub name sid => busSubscribe st name sid
  | .unsub name sid => busUnsubscribe st name sid

/-- A sequence of bus operations, applied in order. -/
def busRun (st : BusState) (ops : List BusOp) : BusState :=
  ops.foldl busStep st

/-- Deltas delivered to the given subscriber handle for the given context
name, in delivery order. -/
def deliveriesTo (sid : Nat) (name : String)
    (log : List (Nat × String × ContextDelta)) : List ContextDelta :=
  match log with
  | [] => []
  | (s, n, d) :: rest =>
    if s = sid ∧ n = name then d :: deliveriesTo sid name rest
    else deliveriesTo sid name rest

end Contexts

namespace Activities

open Contexts

/-- Modelled from the spec: activity status (spec section 4.4). The
transient attaching/detaching substates wrap a running activity and resolve
within one coordinator operation, so they are not observable states of this
model. -/
inductive AStatus where
  | starting
  | running
  | stopping
  | stopped
  deriving DecidableEq

/-- Modelled from the spec: a window participating in an activity — its id
and its `isOwner` flag (the typings file declares `ActivityWindow.isOwner`).
-/
structure AWindow where
  id : Nat
  isOwner : Bool
  deriving DecidableEq

/-- Modelled from the spec: an activity instance — id, status, private
context and the list of all participating windows, owner included. -/
structure Activity where
  id : Nat
  status : AStatus
  context : Fields
  windows : List AWindow
  deriving DecidableEq

/-- Owner window of the activity: the first window flagged as owner. -/
def Activity.owner (a : Activity) : Option AWindow :=
  a.windows.find? (fun w => w.isOwner)

/-- Modelled from the spec: `updateContext` on an activity — merges the
payload into the activity context; an explicit `null` on a key removes the
key (the typings file example: old context `a:1, b:2, c:3` updated with
`b:3, c:null` results in `a:1, b:3`). -/
def Activity.updateContext (a : Activity) (data : UpdateData) : Activity :=
  { a with context := mergeUpdate a.context data }

/-- Modelled from the spec: the descriptor returned by `attach`, retaining
enough information to reconstruct the pre-attach source activity — the id of
the surviving (target) activity, the absorbed windows with their original
owner flags, the pre-merge source context and the caller-supplied tag. -/
structure AttachedActivityDescriptor where
  ownerId : Nat
  windows : List AWindow
  context : Fields
  tag : Fields
  deriving DecidableEq

/-- Modelled from the spec: errors of the activity surface. -/
inductive ActError where
  | activityNotFound
  | attachInvalid
  deriving DecidableEq

/-- Modelled from the spec: the Activity Registry plus Group/Attach
Coordinator state — live activities, descriptors produced by attach,
an append-only status-transition log, window close notifications, and the
fresh-id counters. -/
structure ASystem where
  acts : List Activity
  descriptors : List AttachedActivityDescriptor
  statusLog : List (Nat × AStatus)
  closeNotices : List Nat
  nextActId : Nat
  nextWinId : Nat
  deriving DecidableEq

/-- The empty registry. -/
def initA : ASystem :=
  { acts := [], descriptors := [], statusLog := [], closeNotices := []
    nextActId := 0, nextWinId := 0 }

/-- Live activity with the given id, if any. -/
def lookupAct (st : ASystem) (i : Nat) : Option Activity :=
  st.acts.find? (fun a => a.id == i)

/-- Replace the activity with the given id. -/
def replaceAct (acts : List Activity) (i : Nat) (a : Activity) :
    List Activity :=
  acts.map (fun b => if b.id == i then a else b)

/-- Live activity containing a window with the given id, if any. -/
def findActByWindow (st : ASystem) (wid : Nat) : Option Activity :=
  st.acts.find? (fun a => a.windows.any (fun w => w.id == wid))

/-- Modelled from the spec: `initiate` — creates the activity (Starting),
announces its owner window, and transitions it to Running. -/
def initiateA (st : ASystem) (ctx : Fields) : ASystem :=
  let aid := st.nextActId
  { st with
    acts := st.acts ++ [{ id := aid, status := .running, context := ctx
                          windows := [{ id := st.nextWinId, isOwner := true }] }]
    statusLog := st.statusLog ++ [(aid, .starting), (aid, .running)]
    nextActId := aid + 1
    nextWinId := st.nextWinId + 1 }

/-- Modelled from the spec: `createWindow` — joins a fresh helper window to
a running activity. -/
def createWindowA (st : ASystem) (i : Nat) : ASystem :=
  match lookupAct st i with
  | some a =>
    if a.status = .running then
      { st with
        acts := replaceAct st.acts i
          { a with windows := a.windows ++ [{ id := st.nextWinId, isOwner := false }] }
        nextWinId := st.nextWinId + 1 }
    else st
  | none => st

/-- Modelled from the spec: a window closes. If it is the owner window its
activity transitions Stopping then Stopped, every remaining helper window
receives a close notification, and the activity is removed from the
registry; a closing helper window just leaves its activity. -/
def closeWindowA (st : ASystem) (wid : Nat) : ASystem :=
  match findActByWindow st wid with
  | none => st
  | some a =>
    match a.windows.find? (fun w => w.id == wid) with
    | none => st
    | some w =>
      if w.isOwner then
        { st with
          acts := st.acts.filter (fun b => !(b.id == a.id))
          statusLog := st.statusLog ++ [(a.id, .stopping), (a.id, .stopped)]
          closeNotices := st.closeNotices ++
            ((a.windows.filter (fun x => !x.isOwner)).map (fun x => x.id)) }
      else
        { st with
          acts := replaceAct st.acts a.id
            { a with windows := a.windows.filter (fun x => x.isOwner || !(x.id == wid)) } }

/-- Modelled from the spec: `updateContext` against the registry — fails
with `ActivityNotFound` when no live activity has the given id. -/
def updateContextA (st : ASystem) (i : Nat) (data : UpdateData) :
    Except ActError ASystem :=
  match lookupAct st i with
  | none => .error .activityNotFound
  | some a => .ok { st with acts := replaceAct st.acts i (a.updateContext data) }

/-- Modelled from the spec: the context merge performed by `attach` — the
source context is applied as an update onto the target context but the
target's conflicting keys win, so only source keys absent from the target
are added. -/
def attachMerge (tgt src : Fields) : Fields :=
  Fields.append tgt (diffAdded tgt src)

/-- Modelled from the spec: `attach(source, target, tag)` — merges the
source windows into the target as helpers, merges the contexts with the
target's keys winning, stops and removes the source activity, and records a
descriptor sufficient to detach. -/
def attachA (st : ASystem) (srcId tgtId : Nat) (tag : Fields) :
    Except ActError (ASystem × AttachedActivityDescriptor) :=
  match lookupAct st srcId, lookupAct st tgtId with
  | some s, some t =>
    if srcId = tgtId then .error .attachInvalid
    else if s.status = .running ∧ t.status = .running then
      let d : AttachedActivityDescriptor :=
        { ownerId := tgtId, windows := s.windows, context := s.context, tag := tag }
      let t1 : Activity :=
        { t with
          context := attachMerge t.context s.context
          windows := t.windows ++ s.windows.map (fun w => { w with isOwner := false }) }
      .ok ({ st with
             acts := (replaceAct st.acts tgtId t1).filter (fun b => !(b.id == srcId))
             descriptors := st.descriptors ++ [d]
             statusLog := st.statusLog ++ [(srcId, .stopped)] }, d)
    else .error .activityNotFound
  | _, _ => .error .activityNotFound

/-- Modelled from the spec: `detach(descriptor)` — removes the absorbed
helper windows from the surviving activity and reconstructs a new running
activity with the original window set and the pre-merge context.  Returns
the new system and the id of the restored activity. -/
def detachA (st : ASystem) (d : AttachedActivityDescriptor) : ASystem × Nat :=
  let aid := st.nextActId
  let restored : Activity :=
    { id := aid, status := .running, context := d.context, windows := d.windows }
  let keep : AWindow → Bool :=
    fun w => w.isOwner || !((d.windows.map (fun x => x.id)).contains w.id)
  let acts1 :=
    match lookupAct st d.ownerId with
    | some t => replaceAct st.acts d.ownerId { t with windows := t.windows.filter keep }
    | none => st.acts
  ({ st with
     acts := acts1 ++ [restored]
     statusLog := st.statusLog ++ [(aid, .running)]
     nextActId := aid + 1 }, aid)

/-- Fresh copies of a window list for `clone`, re-identified from `base`
onward, owner flags preserved. -/
def copyWins (base : Nat) : List AWindow → List AWindow
  | [] => []
  | w :: rest => { id := base, isOwner := w.isOwner } :: copyWins (base + 1) rest

/-- Modelled from the spec: `clone` — creates a new independent activity of
the same type with a copy of the current context and a fresh copy of the
window set. -/
def cloneA (st : ASystem) (i : Nat) : ASystem :=
  match lookupAct st i with
  | some a =>
    if a.status = .running then
      { st with
        acts := st.acts ++ [{ id := st.nextActId, status := .running
                              context := a.context
                              windows := copyWins st.nextWinId a.windows }]
        statusLog := st.statusLog ++ [(st.nextActId, .running)]
        nextActId := st.nextActId + 1
        nextWinId := st.nextWinId + a.windows.length }
    else st
  | none => st

/-- Operations a client can issue against the activity surface. -/
inductive AOp where
  | initiate (ctx : Fields)
  | createWin (actId : Nat)
  | closeWin (winId : Nat)
  | updCtx (actId : Nat) (data : UpdateData)
  | attach (srcId tgtId : Nat) (tag : Fields)
  | detach (idx : Nat)
  | clone (actId : Nat)
  deriving DecidableEq

/-- One activity operation; a failing operation leaves the system in its
pre-operation state (spec section 7, rollback). -/
def stepA (st : ASystem) : AOp → ASystem
  | .initiate ctx => initiateA st ctx
  | .createWin i => createWindowA st i
  | .closeWin w => closeWindowA st w
  | .updCtx i data =>
    match updateContextA st i data with
    | .ok st1 => st1
    | .error _ => st
  | .attach srcId tgtId tag =>
    match attachA st srcId tgtId tag with
    | .ok (st1, _) => st1
    | .error _ => st
  | .detach idx =>
    match st.descriptors.get? idx with
    | some d => (detachA st d).1
    | none => st
  | .clone i => cloneA st i

/-- A sequence of activity operations run from the empty registry. -/
def runA (ops : List AOp) : ASystem :=
  ops.foldl stepA initA

/-- Number of windows flagged as owner. -/
def ownersCount (ws : List AWindow) : Nat :=
  (ws.filter (fun w => w.isOwner)).length

/-- The single-owner invariant of spec section 3: every live activity is
running with exactly one owner-flagged window, and every attach descriptor
retains exactly one owner-flagged window. -/
def InvSys (st : ASystem) : Prop :=
  (∀ a ∈ st.acts, a.status = AStatus.running ∧ ownersCount a.windows = 1) ∧
  (∀ d ∈ st.descriptors, ownersCount d.windows = 1)

end Activities

namespace GlueService

open Contexts

/-- An instrument, as declared in `src/app/glue/types.ts`. -/
structure Instrument where
  ric : String
  deriving DecidableEq

/-- The fixed nine-entry portfolio list of `glue.service.ts`. -/
def portfolioInstrumentsList : List Instrument :=
  [{ ric := "VOD:LD" }, { ric := "BMW:GR" }, { ric := "BARC:LN" },
   { ric := "BMW:GR" }, { ric := "NFLX:US" }, { ric := "NFLX:US" },
   { ric := "AAL:LN" }, { ric := "TSCO:L" }, { ric := "GOOGL:US" }]

/-- The draw `Math.floor(Math.random() * Math.floor(list.length))` of
`glue.service.ts`, with the value of `Math.random()` (a rational in the
half-open unit interval) taken as input. -/
def randomEndIndex (q : Rat) : Nat :=
  (Rat.floor (q * (portfolioInstrumentsList.length : Rat))).toNat

/-- The value-tree of an instrument object. -/
def instrumentValue (i : Instrument) : Value :=
  .vObj (.cons "ric" (.vStr i.ric) .nil)

/-- The argument pair `GlueService.updateContext` hands to
`glue.contexts.update`: the context name and the wrapper object nesting the
caller's data under the single key `context`. -/
def updateContextCall (name : String) (data : Value) : String × Fields :=
  (name, .cons "context" data .nil)

/-- The call `GlueService.fetchInstrument` issues for a given random draw:
the instrument at the drawn index of the portfolio list, wrapped by
`updateContext` under the context name `ric`.  `none` would mean an
out-of-bounds list access. -/
def fetchInstrumentCall (q : Rat) : Option (String × Fields) :=
  (portfolioInstrumentsList.get? (randomEndIndex q)).map
    (fun ins => updateContextCall "ric" (instrumentValue ins))

/-- `GlueService.getRandomInstrumentsList`: the slice
`portfolioInstrumentsList.slice(0, randomEndIndex)` for a given random
draw. -/
def getRandomInstrumentsList (q : Rat) : List Instrument :=
  portfolioInstrumentsList.take (randomEndIndex q)

end GlueService

namespace Contexts

/-- Single-motive structural induction for ordered mappings (the mutually
inductive `Fields`). -/
theorem Fields.inductionOn {motive : Fields → Prop} (fs : Fields)
    (nil : motive .nil)
    (cons : ∀ k v rest, motive rest → motive (.cons k v rest)) : motive fs :=
  match fs with
  | .nil => nil
  | .cons k v rest => cons k v rest (Fields.inductionOn rest nil cons)

theorem Fields.lookup_set_self (fs : Fields) (k : String) (v : Value) :
    (fs.set k v).lookup k = some v := by
  induction fs using Fields.inductionOn with
  | nil => simp [Fields.set, Fields.lookup]
  | cons k0 v0 rest ih =>
    by_cases h : k0 = k <;> simp [Fields.set, Fields.lookup, h, ih]

theorem Fields.lookup_set_ne (fs : Fields) {k k' : String} (v : Value)
    (h : k' ≠ k) : (fs.set k v).lookup k' = fs.lookup k' := by
  have hne : ¬ (k = k') := fun hh => h hh.symm
  induction fs using Fields.inductionOn with
  | nil => simp [Fields.set, Fields.lookup, hne]
  | cons k0 v0 rest ih =>
    by_cases h0 : k0 = k
    · subst h0
      simp [Fields.set, Fields.lookup, hne]
    · by_cases h1 : k0 = k'
      · subst h1
        simp [Fields.set, Fields.lookup, h0]
      · simp [Fields.set, Fields.lookup, h0, h1, ih]

theorem Fields.lookup_erase_ne (fs : Fields) {k k' : String}
    (h : k' ≠ k) : (fs.erase k).lookup k' = fs.lookup k' := by
  have hne : ¬ (k = k') := fun hh => h hh.symm
  induction fs using Fields.inductionOn with
  | nil => simp [Fields.erase]
  | cons k0 v0 rest ih =>
    by_cases h0 : k0 = k
    · subst h0
      simp [Fields.erase, Fields.lookup, hne]
    · by_cases h1 : k0 = k'
      · subst h1
        simp [Fields.erase, Fields.lookup, h0]
      · simp [Fields.erase, Fields.lookup, h0, h1, ih]

theorem Fields.mem_keys_iff_lookup (fs : Fields) (k : String) :
    k ∈ fs.keys ↔ (fs.lookup k).isSome = true := by
  induction fs using Fields.inductionOn with
  | nil => simp [Fields.keys, Fields.lookup]
  | cons k0 v0 rest ih =>
    by_cases h : k0 = k
    · subst h
      simp [Fields.keys, Fields.lookup]
    · have hne : ¬ (k = k0) := fun hh => h hh.symm
      simp [Fields.keys, Fields.lookup, h, hne, ih]

theorem Fields.hasKey_iff_mem_keys (fs : Fields) (k : String) :
    fs.hasKey k = true ↔ k ∈ fs.keys := by
  rw [Fields.hasKey, Fields.mem_keys_iff_lookup]

theorem Fields.lookup_eq_none_iff (fs : Fields) (k : String) :
    fs.lookup k = none ↔ ¬ k ∈ fs.keys := by
  rw [Fields.mem_keys_iff_lookup]
  cases h : fs.lookup k <;> simp

theorem Fields.lookup_erase_self (fs : Fields) (k : String)
    (h : fs.nodupKeys) : (fs.erase k).lookup k = none := by
  induction fs using Fields.inductionOn with
  | nil => simp [Fields.erase, Fields.lookup]
  | cons k0 v0 rest ih =>
    rw [Fields.nodupKeys, Fields.keys, List.nodup_cons] at h
    by_cases h0 : k0 = k
    · subst h0
      rw [Fields.lookup_eq_none_iff]
      simp [Fields.erase]
      exact h.1
    · simp [Fields.erase, Fields.lookup, h0, ih h.2]

theorem Fields.keys_set_of_hasKey (fs : Fields) (k : String) (v : Value)
    (h : fs.hasKey k = true) : (fs.set k v).keys = fs.keys := by
  induction fs using Fields.inductionOn with
  | nil => simp [Fields.hasKey, Fields.lookup] at h
  | cons k0 v0 rest ih =>
    by_cases h0 : k0 = k
    · simp [Fields.set, h0, Fields.keys]
    · rw [Fields.hasKey, Fields.lookup] at h
      simp [h0] at h
      have hrest : rest.hasKey k = true := by
        rw [Fields.hasKey]
        exact h
      simp [Fields.set, h0, Fields.keys, ih hrest]

theorem Fields.keys_set_of_not_hasKey (fs : Fields) (k : String) (v : Value)
    (h : fs.hasKey k = false) : (fs.set k v).keys = fs.keys ++ [k] := by
  induction fs using Fields.inductionOn with
  | nil => simp [Fields.set, Fields.keys]
  | cons k0 v0 rest ih =>
    rw [Fields.hasKey, Fields.lookup] at h
    by_cases h0 : k0 = k
    · simp [h0] at h
    · simp [h0] at h
      have hrest : rest.hasKey k = false := by
        rw [Fields.hasKey, h]
        rfl
      simp [Fields.set, h0, Fields.keys, ih hrest]

theorem Fields.nodupKeys_set (fs : Fields) (k : String) (v : Value)
    (h : fs.nodupKeys) : (fs.set k v).nodupKeys := by
  cases hk : fs.hasKey k
  · rw [Fields.nodupKeys, Fields.keys_set_of_not_hasKey fs k v hk]
    have hk2 : ¬ k ∈ fs.keys := by
      rw [← Fields.hasKey_iff_mem_keys]
      simp [hk]
    rw [Fields.nodupKeys] at h
    simp [List.nodup_append, h, hk2]
  · rw [Fields.nodupKeys, Fields.keys_set_of_hasKey fs k v hk]
    exact h

theorem Fields.keys_erase_sublist (fs : Fields) (k : String) :
    (fs.erase k).keys.Sublist fs.keys := by
  induction fs using Fields.inductionOn with
  | nil => simp [Fields.erase]
  | cons k0 v0 rest ih =>
    by_cases h0 : k0 = k
    · simp [Fields.erase, h0, Fields.keys]
    · simp [Fields.erase, h0, Fields.keys]
      exact ih

theorem Fields.nodupKeys_erase (fs : Fields) (k : String)
    (h : fs.nodupKeys) : (fs.erase k).nodupKeys :=
  List.Nodup.sublist (Fields.keys_erase_sublist fs k) h

theorem Fields.wf_nodupKeys (fs : Fields) (h : fs.wf = true) : fs.nodupKeys := by
  induction fs using Fields.inductionOn with
  | nil => simp [Fields.nodupKeys, Fields.keys]
  | cons k0 v0 rest ih =>
    rw [Fields.wf] at h
    simp only [Bool.and_eq_true, Bool.not_eq_true'] at h
    rw [Fields.nodupKeys, Fields.keys, List.nodup_cons]
    refine ⟨?_, ih h.2⟩
    intro hmem
    rw [← Fields.hasKey_iff_mem_keys] at hmem
    rw [hmem] at h
    simp at h

theorem Fields.lookup_wf (fs : Fields) (k : String) (v : Value)
    (h : fs.wf = true) (hl : fs.lookup k = some v) : v.wf = true := by
  induction fs using Fields.inductionOn with
  | nil => simp [Fields.lookup] at hl
  | cons k0 v0 rest ih =>
    rw [Fields.wf] at h
    simp only [Bool.and_eq_true, Bool.not_eq_true'] at h
    rw [Fields.lookup] at hl
    by_cases h0 : k0 = k
    · simp [h0] at hl
      rw [← hl]
      exact h.1.2
    · simp [h0] at hl
      exact ih h.2 hl

theorem Fields.lookup_sizeOf (fs : Fields) (k : String) (v : Value)
    (hl : fs.lookup k = some v) : sizeOf v < sizeOf fs := by
  induction fs using Fields.inductionOn with
  | nil => simp [Fields.lookup] at hl
  | cons k0 v0 rest ih =>
    rw [Fields.lookup] at hl
    by_cases h0 : k0 = k
    · simp [h0] at hl
      subst hl
      simp
      omega
    · simp [h0] at hl
      have := ih hl
      simp
      omega

end Contexts

namespace Contexts

theorem Fields.hasKey_cons_iff (k0 : String) (v0 : Value) (rest : Fields)
    (k : String) :
    (Fields.cons k0 v0 rest).hasKey k = true ↔ (k0 = k ∨ rest.hasKey k = true) := by
  by_cases h : k0 = k <;> simp [Fields.hasKey, Fields.lookup, h]

theorem lookup_diffAdded (old new : Fields) (k : String) :
    (diffAdded old new).lookup k =
      if old.hasKey k = true then none else new.lookup k := by
  induction new using Fields.inductionOn with
  | nil => simp [diffAdded, Fields.lookup]
  | cons k0 v0 rest ih =>
    by_cases h0 : k0 = k
    · subst h0
      cases hk0 : old.hasKey k0
      · simp [diffAdded, hk0, Fields.lookup]
      · simp [diffAdded, hk0, Fields.lookup, ih]
    · cases hk0 : old.hasKey k0
      · simp [diffAdded, hk0, Fields.lookup, h0, ih]
      · simp [diffAdded, hk0, Fields.lookup, h0, ih]

theorem keys_diffAdded_sublist (old new : Fields) :
    (diffAdded old new).keys.Sublist new.keys := by
  induction new using Fields.inductionOn with
  | nil => simp [diffAdded]
  | cons k0 v0 rest ih =>
    cases hk0 : old.hasKey k0
    · simp [diffAdded, hk0, Fields.keys]
      exact ih
    · simp [diffAdded, hk0, Fields.keys]
      exact List.Sublist.cons k0 ih

theorem nodupKeys_diffAdded (old new : Fields) (h : new.nodupKeys) :
    (diffAdded old new).nodupKeys :=
  List.Nodup.sublist (keys_diffAdded_sublist old new) h

theorem lookup_diffUpdated (old new : Fields) (k : String) (hn : new.nodupKeys) :
    (diffUpdated old new).lookup k =
      match old.lookup k, new.lookup k with
      | some w, some v => if w = v then none else some (updVal w v)
      | _, _ => none := by
  induction new using Fields.inductionOn with
  | nil =>
    cases ho : old.lookup k <;> simp [diffUpdated, Fields.lookup]
  | cons k0 v0 rest ih =>
    rw [Fields.nodupKeys, Fields.keys, List.nodup_cons] at hn
    have ihr := ih hn.2
    by_cases h0 : k0 = k
    · subst h0
      have hrest : rest.lookup k0 = none := by
        rw [Fields.lookup_eq_none_iff]
        exact hn.1
      cases ho : old.lookup k0 with
      | none => simp [diffUpdated, ho, Fields.lookup, ihr, hrest]
      | some w =>
        by_cases hv : w = v0
        · simp [diffUpdated, ho, hv, Fields.lookup, ihr, hrest]
        · simp [diffUpdated, ho, hv, Fields.lookup]
    · cases ho : old.lookup k0 with
      | none => simp [diffUpdated, ho, Fields.lookup, h0, ihr]
      | some w =>
        by_cases hv : w = v0
        · simp [diffUpdated, ho, hv, Fields.lookup, h0, ihr]
        · simp [diffUpdated, ho, hv, Fields.lookup, h0, ihr]

theorem keys_diffUpdated_sublist (old new : Fields) :
    (diffUpdated old new).keys.Sublist new.keys := by
  induction new using Fields.inductionOn with
  | nil => simp [diffUpdated]
  | cons k0 v0 rest ih =>
    cases ho : old.lookup k0 with
    | none =>
      simp [diffUpdated, ho, Fields.keys]
      exact List.Sublist.cons k0 ih
    | some w =>
      by_cases hv : w = v0
      · simp [diffUpdated, ho, hv, Fields.keys]
        exact List.Sublist.cons k0 ih
      · simp [diffUpdated, ho, hv, Fields.keys]
        exact ih

theorem nodupKeys_diffUpdated (old new : Fields) (h : new.nodupKeys) :
    (diffUpdated old new).nodupKeys :=
  List.Nodup.sublist (keys_diffUpdated_sublist old new) h

theorem diffRemoved_shape (old new : Fields) (p : List String)
    (hp : p ∈ diffRemoved old new) :
    ∃ k t, p = k :: t ∧ old.hasKey k = true := by
  induction old using Fields.inductionOn with
  | nil => simp [diffRemoved] at hp
  | cons k0 v0 rest ih =>
    rw [diffRemoved] at hp
    rw [List.mem_append] at hp
    cases hp with
    | inl h1 =>
      refine ⟨k0, ?_⟩
      cases hn : new.lookup k0 with
      | none =>
        rw [hn] at h1
        simp at h1
        exact ⟨[], by simp [h1, Fields.hasKey_cons_iff]⟩
      | some w =>
        rw [hn] at h1
        simp at h1
        obtain ⟨q, _, hq⟩ := h1
        exact ⟨q, by simp [← hq, Fields.hasKey_cons_iff]⟩
    | inr h2 =>
      obtain ⟨k, t, ht, hk⟩ := ih h2
      exact ⟨k, t, ht, by simp [Fields.hasKey_cons_iff, hk]⟩

end Contexts

namespace Contexts

theorem lookup_mergeFields (upd cur : Fields) (k : String) (hu : upd.nodupKeys) :
    (mergeFields cur upd).lookup k =
      match cur.lookup k, upd.lookup k with
      | some w, some v => some (mergeVal w v)
      | some w, none => some w
      | none, some v => some v
      | none, none => none := by
  induction upd using Fields.inductionOn generalizing cur with
  | nil => cases hc : cur.lookup k <;> simp [mergeFields, Fields.lookup, hc]
  | cons k0 v0 rest ih =>
    rw [Fields.nodupKeys, Fields.keys, List.nodup_cons] at hu
    by_cases h0 : k0 = k
    · subst h0
      have hrest : rest.lookup k0 = none := by
        rw [Fields.lookup_eq_none_iff]
        exact hu.1
      cases hc : cur.lookup k0 with
      | none =>
        rw [mergeFields, hc, ih (cur.set k0 v0) hu.2]
        simp [Fields.lookup_set_self, hrest, Fields.lookup]
      | some w =>
        rw [mergeFields, hc, ih (cur.set k0 (mergeVal w v0)) hu.2]
        simp [Fields.lookup_set_self, hrest, Fields.lookup, hc]
    · have hlk : ∀ v1, (cur.set k0 v1).lookup k = cur.lookup k := by
        intro v1
        exact Fields.lookup_set_ne cur v1 (fun hh => h0 hh.symm)
      cases hc : cur.lookup k0 with
      | none =>
        rw [mergeFields, hc, ih (cur.set k0 v0) hu.2]
        simp [hlk, Fields.lookup, h0]
      | some w =>
        rw [mergeFields, hc, ih (cur.set k0 (mergeVal w v0)) hu.2]
        simp [hlk, Fields.lookup, h0]

theorem nodupKeys_mergeFields (upd cur : Fields) (hc : cur.nodupKeys) :
    (mergeFields cur upd).nodupKeys := by
  induction upd using Fields.inductionOn generalizing cur with
  | nil => simpa [mergeFields] using hc
  | cons k0 v0 rest ih =>
    cases hck : cur.lookup k0 with
    | none =>
      rw [mergeFields, hck]
      exact ih (cur.set k0 v0) (Fields.nodupKeys_set cur k0 v0 hc)
    | some w =>
      rw [mergeFields, hck]
      exact ih (cur.set k0 (mergeVal w v0)) (Fields.nodupKeys_set cur k0 _ hc)

theorem mergeFields_append (a b cur : Fields) :
    mergeFields cur (Fields.append a b) = mergeFields (mergeFields cur a) b := by
  induction a using Fields.inductionOn generalizing cur with
  | nil => rw [Fields.append, mergeFields]
  | cons k0 v0 rest ih =>
    rw [Fields.append, mergeFields, mergeFields]
    exact ih _

theorem removePath_cons_cons (fs : Fields) (k0 p1 : String) (p2 : List String) :
    removePath fs (k0 :: p1 :: p2) =
      match fs.lookup k0 with
      | some (.vObj o) => fs.set k0 (.vObj (removePath o (p1 :: p2)))
      | _ => fs := rfl

theorem lookup_removePath_ne (fs : Fields) (p : List String) (k : String)
    (h : p.head? ≠ some k) : (removePath fs p).lookup k = fs.lookup k := by
  match p with
  | [] => rw [removePath]
  | [k0] =>
    have hk : k ≠ k0 := by
      intro hh
      exact h (by rw [hh]; rfl)
    rw [removePath]
    exact Fields.lookup_erase_ne fs hk
  | k0 :: p1 :: p2 =>
    have hk : k ≠ k0 := by
      intro hh
      exact h (by rw [hh]; rfl)
    rw [removePath_cons_cons]
    cases hl : fs.lookup k0 with
    | none => rfl
    | some w =>
      cases w with
      | vObj o => simp only []; exact Fields.lookup_set_ne fs _ hk
      | vInt n => rfl
      | vStr s => rfl
      | vBool b => rfl

theorem nodupKeys_removePath (fs : Fields) (p : List String)
    (h : fs.nodupKeys) : (removePath fs p).nodupKeys := by
  match p with
  | [] => rwa [removePath]
  | [k0] =>
    rw [removePath]
    exact Fields.nodupKeys_erase fs k0 h
  | k0 :: p1 :: p2 =>
    rw [removePath_cons_cons]
    cases hl : fs.lookup k0 with
    | none => exact h
    | some w =>
      cases w with
      | vObj o => exact Fields.nodupKeys_set fs k0 _ h
      | vInt n => exact h
      | vStr s => exact h
      | vBool b => exact h

theorem nodupKeys_removeAll (paths : List (List String)) (fs : Fields)
    (h : fs.nodupKeys) : (removeAll fs paths).nodupKeys := by
  induction paths generalizing fs with
  | nil => rwa [removeAll, List.foldl_nil]
  | cons p ps ih =>
    rw [removeAll, List.foldl_cons]
    exact ih (removePath fs p) (nodupKeys_removePath fs p h)

theorem lookup_removeAll_no_head (paths : List (List String)) (fs : Fields)
    (k : String) (h : ∀ p ∈ paths, p.head? ≠ some k) :
    (removeAll fs paths).lookup k = fs.lookup k := by
  induction paths generalizing fs with
  | nil => rw [removeAll, List.foldl_nil]
  | cons p ps ih =>
    rw [removeAll, List.foldl_cons]
    rw [show List.foldl removePath (removePath fs p) ps = removeAll (removePath fs p) ps from rfl]
    rw [ih (removePath fs p) (fun q hq => h q (List.mem_cons_of_mem p hq))]
    exact lookup_removePath_ne fs p k (h p (List.mem_cons_self p ps))

theorem removeAll_append (ps qs : List (List String)) (fs : Fields) :
    removeAll fs (ps ++ qs) = removeAll (removeAll fs ps) qs := by
  rw [removeAll, removeAll, removeAll, List.foldl_append]

theorem lookup_removeAll_mapCons (qs : List (List String)) (fs : Fields)
    (k : String) (hq : ∀ q ∈ qs, q ≠ []) :
    (removeAll fs (qs.map (fun q => k :: q))).lookup k =
      match fs.lookup k with
      | some (.vObj o) => some (.vObj (removeAll o qs))
      | c => c := by
  induction qs generalizing fs with
  | nil =>
    rw [List.map_nil, removeAll, List.foldl_nil]
    cases hl : fs.lookup k with
    | none => rfl
    | some w =>
      cases w with
      | vObj o => simp [removeAll]
      | vInt n => rfl
      | vStr s => rfl
      | vBool b => rfl
  | cons q qs1 ih =>
    have hq0 : q ≠ [] := hq q (List.mem_cons_self q qs1)
    match q, hq0 with
    | q0 :: qt, _ =>
      rw [List.map_cons, removeAll, List.foldl_cons]
      rw [show List.foldl removePath (removePath fs (k :: q0 :: qt)) (List.map (fun q => k :: q) qs1)
            = removeAll (removePath fs (k :: q0 :: qt)) (List.map (fun q => k :: q) qs1) from rfl]
      rw [ih (removePath fs (k :: q0 :: qt)) (fun r hr => hq r (List.mem_cons_of_mem _ hr))]
      rw [removePath_cons_cons]
      cases hl : fs.lookup k with
      | none => simp [hl]
      | some w =>
        cases w with
        | vObj o => simp [hl, Fields.lookup_set_self, removeAll]
        | vInt n => simp [hl]
        | vStr s => simp [hl]
        | vBool b => simp [hl]

end Contexts

namespace Contexts

theorem Fields.one_le_sizeOf (fs : Fields) : 1 ≤ sizeOf fs := by
  cases fs <;> simp <;> omega

theorem Fields.mem_keys_of_mem_toList (fs : Fields) (k : String) (v : Value)
    (hm : (k, v) ∈ fs.toList) : k ∈ fs.keys := by
  induction fs using Fields.inductionOn with
  | nil => simp [Fields.toList] at hm
  | cons k0 v0 rest ih =>
    rw [Fields.toList] at hm
    rw [Fields.keys]
    rcases List.mem_cons.mp hm with h1 | h2
    · have hk : k = k0 := congrArg Prod.fst h1
      rw [hk]
      exact List.mem_cons_self _ _
    · exact List.mem_cons_of_mem _ (ih h2)

theorem Fields.lookup_of_mem_toList (fs : Fields) (k : String) (v : Value)
    (hn : fs.nodupKeys) (hm : (k, v) ∈ fs.toList) : fs.lookup k = some v := by
  induction fs using Fields.inductionOn with
  | nil => simp [Fields.toList] at hm
  | cons k0 v0 rest ih =>
    rw [Fields.nodupKeys, Fields.keys, List.nodup_cons] at hn
    rw [Fields.toList] at hm
    rcases List.mem_cons.mp hm with h1 | h2
    · have hk : k0 = k := (congrArg Prod.fst h1).symm
      have hv : v0 = v := (congrArg Prod.snd h1).symm
      rw [Fields.lookup, if_pos hk, hv]
    · have hk : k0 ≠ k := by
        intro hh
        exact hn.1 (hh ▸ Fields.mem_keys_of_mem_toList rest k v h2)
      rw [Fields.lookup, if_neg hk]
      exact ih hn.2 h2

theorem Fields.wf_of_mem_toList (fs : Fields) (k : String) (v : Value)
    (hw : fs.wf = true) (hm : (k, v) ∈ fs.toList) : v.wf = true := by
  induction fs using Fields.inductionOn with
  | nil => simp [Fields.toList] at hm
  | cons k0 v0 rest ih =>
    rw [Fields.wf] at hw
    simp only [Bool.and_eq_true, Bool.not_eq_true'] at hw
    rw [Fields.toList] at hm
    rcases List.mem_cons.mp hm with h1 | h2
    · have hv : v0 = v := (congrArg Prod.snd h1).symm
      rw [← hv]
      exact hw.1.2
    · exact ih hw.2 h2

theorem diffRemoved_eq_nil_aux (N : Nat) : ∀ (old big : Fields),
    sizeOf old ≤ N →
    (∀ k v, (k, v) ∈ old.toList → big.lookup k = some v ∧ v.wf = true) →
    diffRemoved old big = [] := by
  induction N with
  | zero =>
    intro old big hs _
    exact absurd hs (by have := Fields.one_le_sizeOf old; omega)
  | succ N ih =>
    intro old big hs h
    cases old with
    | nil => rw [diffRemoved]
    | cons k0 v0 rest =>
      have hhead : big.lookup k0 = some v0 ∧ v0.wf = true :=
        h k0 v0 (by rw [Fields.toList]; exact List.mem_cons_self _ _)
      have hszr : sizeOf rest ≤ N := by
        have : sizeOf rest < sizeOf (Fields.cons k0 v0 rest) := by simp <;> omega
        omega
      have hrest : diffRemoved rest big = [] := by
        apply ih rest big hszr
        intro k v hm
        exact h k v (by rw [Fields.toList]; exact List.mem_cons_of_mem _ hm)
      cases v0 with
      | vObj oo =>
        have hwoo : Fields.wf oo = true := by
          have h2 := hhead.2
          rwa [Value.wf] at h2
        have hoo : diffRemoved oo oo = [] := by
          apply ih oo oo ?_ ?_
          · have h1 : sizeOf oo < sizeOf (Fields.cons k0 (Value.vObj oo) rest) := by
              simp <;> omega
            omega
          · intro k v hm
            exact ⟨Fields.lookup_of_mem_toList oo k v (Fields.wf_nodupKeys oo hwoo) hm,
                   Fields.wf_of_mem_toList oo k v hwoo hm⟩
        rw [diffRemoved, hhead.1]
        simp [removedVal, hoo, hrest]
      | vInt n =>
        rw [diffRemoved, hhead.1]
        simp [removedVal, hrest]
      | vStr s =>
        rw [diffRemoved, hhead.1]
        simp [removedVal, hrest]
      | vBool b =>
        rw [diffRemoved, hhead.1]
        simp [removedVal, hrest]

theorem diffRemoved_self_nil (fs : Fields) (h : fs.wf = true) :
    diffRemoved fs fs = [] := by
  apply diffRemoved_eq_nil_aux (sizeOf fs) fs fs le_rfl
  intro k v hm
  exact ⟨Fields.lookup_of_mem_toList fs k v (Fields.wf_nodupKeys fs h) hm,
         Fields.wf_of_mem_toList fs k v h hm⟩

end Contexts

namespace Contexts

theorem diffRemoved_cons_none (k0 : String) (v0 : Value) (rest new : Fields)
    (hn : new.lookup k0 = none) :
    diffRemoved (.cons k0 v0 rest) new = [[k0]] ++ diffRemoved rest new := by
  rw [diffRemoved, hn]

theorem diffRemoved_cons_some (k0 : String) (v0 : Value) (rest new : Fields)
    (w : Value) (hn : new.lookup k0 = some w) :
    diffRemoved (.cons k0 v0 rest) new =
      (removedVal v0 w).map (fun p => k0 :: p) ++ diffRemoved rest new := by
  rw [diffRemoved, hn]

theorem lookup_removeAll_diffRemoved (old new F : Fields) (k : String)
    (ho : old.nodupKeys) (hF : F.nodupKeys) :
    (removeAll F (diffRemoved old new)).lookup k =
      (match old.lookup k, new.lookup k with
       | some _, none => none
       | some (.vObj o), some (.vObj n) =>
         (match F.lookup k with
          | some (.vObj fo) => some (.vObj (removeAll fo (diffRemoved o n)))
          | c => c)
       | _, _ => F.lookup k) := by
  induction old using Fields.inductionOn generalizing F with
  | nil =>
    rw [diffRemoved, removeAll, List.foldl_nil, Fields.lookup]
  | cons k0 v0 rest ih =>
    rw [Fields.nodupKeys, Fields.keys, List.nodup_cons] at ho
    by_cases hkk : k0 = k
    · subst hkk
      have hnohead : ∀ p ∈ diffRemoved rest new, p.head? ≠ some k0 := by
        intro p hp
        obtain ⟨kk, t, hpt, hkk2⟩ := diffRemoved_shape rest new p hp
        rw [hpt]
        simp only [List.head?_cons, ne_eq, Option.some.injEq]
        intro hcon
        rw [Fields.hasKey_iff_mem_keys] at hkk2
        exact ho.1 (hcon ▸ hkk2)
      rw [Fields.lookup, if_pos rfl]
      cases hn : new.lookup k0 with
      | none =>
        rw [diffRemoved_cons_none k0 v0 rest new hn]
        rw [removeAll_append, lookup_removeAll_no_head _ _ _ hnohead]
        rw [show removeAll F [[k0]] = F.erase k0 from rfl]
        rw [Fields.lookup_erase_self F k0 hF]
        cases v0 <;> rfl
      | some w =>
        cases v0 with
        | vObj o =>
          cases w with
          | vObj n =>
            rw [diffRemoved_cons_some k0 _ rest new _ hn]
            rw [show removedVal (Value.vObj o) (Value.vObj n) = diffRemoved o n from rfl]
            rw [removeAll_append, lookup_removeAll_no_head _ _ _ hnohead]
            rw [lookup_removeAll_mapCons (diffRemoved o n) F k0 ?_]
            intro q hq
            obtain ⟨kk, t, hpt, _⟩ := diffRemoved_shape o n q hq
            rw [hpt]
            exact List.cons_ne_nil kk t
          | vInt n2 =>
            rw [diffRemoved_cons_some k0 _ rest new _ hn]
            rw [show removedVal (Value.vObj o) (Value.vInt n2) = [] from rfl]
            rw [List.map_nil, List.nil_append, lookup_removeAll_no_head _ _ _ hnohead]
          | vStr s2 =>
            rw [diffRemoved_cons_some k0 _ rest new _ hn]
            rw [show removedVal (Value.vObj o) (Value.vStr s2) = [] from rfl]
            rw [List.map_nil, List.nil_append, lookup_removeAll_no_head _ _ _ hnohead]
          | vBool b2 =>
            rw [diffRemoved_cons_some k0 _ rest new _ hn]
            rw [show removedVal (Value.vObj o) (Value.vBool b2) = [] from rfl]
            rw [List.map_nil, List.nil_append, lookup_removeAll_no_head _ _ _ hnohead]
        | vInt n1 =>
          rw [diffRemoved_cons_some k0 _ rest new _ hn]
          rw [show removedVal (Value.vInt n1) w = [] from rfl]
          rw [List.map_nil, List.nil_append, lookup_removeAll_no_head _ _ _ hnohead]
        | vStr s1 =>
          rw [diffRemoved_cons_some k0 _ rest new _ hn]
          rw [show removedVal (Value.vStr s1) w = [] from rfl]
          rw [List.map_nil, List.nil_append, lookup_removeAll_no_head _ _ _ hnohead]
        | vBool b1 =>
          rw [diffRemoved_cons_some k0 _ rest new _ hn]
          rw [show removedVal (Value.vBool b1) w = [] from rfl]
          rw [List.map_nil, List.nil_append, lookup_removeAll_no_head _ _ _ hnohead]
    · cases hn : new.lookup k0 with
      | none =>
        have hBno : ∀ p ∈ [[k0]], p.head? ≠ some k := by
          intro p hp
          simp at hp
          rw [hp]
          simp only [List.head?_cons, ne_eq, Option.some.injEq]
          exact hkk
        rw [diffRemoved_cons_none k0 v0 rest new hn]
        rw [removeAll_append, ih _ ho.2 (nodupKeys_removeAll _ F hF)]
        rw [lookup_removeAll_no_head _ _ _ hBno]
        rw [Fields.lookup, if_neg hkk]
      | some w =>
        have hBno : ∀ p ∈ (removedVal v0 w).map (fun p => k0 :: p),
            p.head? ≠ some k := by
          intro p hp
          simp at hp
          obtain ⟨q, _, hq⟩ := hp
          rw [← hq]
          simp only [List.head?_cons, ne_eq, Option.some.injEq]
          exact hkk
        rw [diffRemoved_cons_some k0 v0 rest new w hn]
        rw [removeAll_append, ih _ ho.2 (nodupKeys_removeAll _ F hF)]
        rw [lookup_removeAll_no_head _ _ _ hBno]
        rw [Fields.lookup, if_neg hkk]

theorem subsetF_of_lookup (a b : Fields) (ha : a.nodupKeys)
    (h : ∀ k v, a.lookup k = some v →
        ∃ w, b.lookup k = some w ∧ Value.equiv v w = true) :
    Fields.subsetF a b = true := by
  induction a using Fields.inductionOn with
  | nil => rw [Fields.subsetF]
  | cons k0 v0 rest ih =>
    rw [Fields.nodupKeys, Fields.keys, List.nodup_cons] at ha
    obtain ⟨w, hw, he⟩ := h k0 v0 (by rw [Fields.lookup, if_pos rfl])
    rw [Fields.subsetF, hw, Bool.and_eq_true]
    refine ⟨he, ih ha.2 ?_⟩
    intro k v hl
    have hk : k0 ≠ k := by
      intro hh
      subst hh
      have : k0 ∈ rest.keys := by
        rw [Fields.mem_keys_iff_lookup, hl]
        rfl
      exact ha.1 this
    exact h k v (by rw [Fields.lookup, if_neg hk]; exact hl)

theorem keysIncl_of (a b : Fields)
    (h : ∀ k, a.hasKey k = true → b.hasKey k = true) : keysIncl a b = true := by
  rw [keysIncl, List.all_eq_true]
  intro k hk
  exact h k ((Fields.hasKey_iff_mem_keys a k).mpr hk)

theorem equiv_refl_aux (N : Nat) : ∀ (v : Value), sizeOf v ≤ N →
    v.wf = true → Value.equiv v v = true := by
  induction N with
  | zero =>
    intro v hs _
    cases v <;> simp at hs <;> omega
  | succ N ih =>
    intro v hs hw
    cases v with
    | vInt n => simp [Value.equiv]
    | vStr s => simp [Value.equiv]
    | vBool b => simp [Value.equiv]
    | vObj fs =>
      rw [Value.equiv, Bool.and_eq_true]
      rw [Value.wf] at hw
      constructor
      · apply subsetF_of_lookup fs fs (Fields.wf_nodupKeys fs hw)
        intro k v hl
        refine ⟨v, hl, ih v ?_ (Fields.lookup_wf fs k v hw hl)⟩
        have h1 := Fields.lookup_sizeOf fs k v hl
        have h2 : sizeOf fs < sizeOf (Value.vObj fs) := by simp
        omega
      · exact keysIncl_of fs fs (fun k hk => hk)

theorem equiv_refl (v : Value) (h : v.wf = true) : Value.equiv v v = true :=
  equiv_refl_aux (sizeOf v) v le_rfl h

theorem equiv_vObj_of_pointwise (R B : Fields) (hR : R.nodupKeys)
    (h : ∀ k, OptEquiv (R.lookup k) (B.lookup k) = true) :
    Value.equiv (.vObj R) (.vObj B) = true := by
  rw [Value.equiv, Bool.and_eq_true]
  constructor
  · apply subsetF_of_lookup R B hR
    intro k v hl
    have hk := h k
    rw [hl] at hk
    cases hb : B.lookup k with
    | none =>
      rw [hb] at hk
      simp [OptEquiv] at hk
    | some w =>
      rw [hb] at hk
      rw [OptEquiv] at hk
      exact ⟨w, rfl, hk⟩
  · apply keysIncl_of B R
    intro k hk
    have hpk := h k
    rw [Fields.hasKey] at hk
    cases hb : B.lookup k with
    | none => rw [hb] at hk; simp at hk
    | some w =>
      rw [hb] at hpk
      cases hr : R.lookup k with
      | none =>
        rw [hr] at hpk
        simp [OptEquiv] at hpk
      | some v =>
        rw [Fields.hasKey, hr]
        rfl

theorem optEquiv_some_self (v : Value) (h : v.wf = true) :
    OptEquiv (some v) (some v) = true := by
  rw [OptEquiv]
  exact equiv_refl v h

theorem lookup_merge_phase (A B : Fields) (k : String) (hBn : B.nodupKeys) :
    (mergeFields (mergeFields A (diffAdded A B)) (diffUpdated A B)).lookup k =
      (match A.lookup k, B.lookup k with
       | none, c => c
       | some w, none => some w
       | some w, some v => if w = v then some w else some (mergeVal w (updVal w v))) := by
  rw [lookup_mergeFields _ _ _ (nodupKeys_diffUpdated A B hBn)]
  rw [lookup_mergeFields _ _ _ (nodupKeys_diffAdded A B hBn)]
  rw [lookup_diffAdded, lookup_diffUpdated A B k hBn]
  cases hA : A.lookup k with
  | none =>
    have hhk : A.hasKey k = false := by rw [Fields.hasKey, hA]; rfl
    rw [hhk]
    cases hB : B.lookup k <;> simp
  | some w =>
    have hhk : A.hasKey k = true := by rw [Fields.hasKey, hA]; rfl
    rw [hhk]
    cases hB : B.lookup k with
    | none => simp
    | some v =>
      by_cases hv : w = v
      · simp [hv]
      · simp [hv]

theorem roundtrip_pointwise (A B : Fields) (hA : A.wf = true) (hB : B.wf = true)
    (IH : ∀ o n : Fields, sizeOf n < sizeOf B → o.wf = true → n.wf = true →
        Value.equiv (.vObj (apply o (diff o n))) (.vObj n) = true) :
    ∀ k, OptEquiv ((apply A (diff A B)).lookup k) (B.lookup k) = true := by
  intro k
  have hAn : A.nodupKeys := Fields.wf_nodupKeys A hA
  have hBn : B.nodupKeys := Fields.wf_nodupKeys B hB
  have hMn : (mergeFields (mergeFields A (diffAdded A B)) (diffUpdated A B)).nodupKeys :=
    nodupKeys_mergeFields _ _ (nodupKeys_mergeFields _ _ hAn)
  rw [show apply A (diff A B)
        = removeAll (mergeFields (mergeFields A (diffAdded A B)) (diffUpdated A B))
            (diffRemoved A B) from rfl]
  rw [lookup_removeAll_diffRemoved A B _ k hAn hMn]
  rw [lookup_merge_phase A B k hBn]
  cases hAk : A.lookup k with
  | none =>
    cases hBk : B.lookup k with
    | none => rfl
    | some v =>
      have hvwf : v.wf = true := Fields.lookup_wf B k v hB hBk
      cases v <;> exact optEquiv_some_self _ hvwf
  | some w =>
    have hwwf : w.wf = true := Fields.lookup_wf A k w hA hAk
    cases hBk : B.lookup k with
    | none => cases w <;> rfl
    | some v =>
      have hvwf : v.wf = true := Fields.lookup_wf B k v hB hBk
      by_cases hv : w = v
      · subst hv
        cases w with
        | vObj o =>
          have hown : o.wf = true := by rwa [Value.wf] at hwwf
          have h1 : diffRemoved o o = [] := diffRemoved_self_nil o hown
          simp only [h1]
          simp [removeAll, OptEquiv]
          exact equiv_refl _ hwwf
        | vInt n => simp [OptEquiv, Value.equiv]
        | vStr s => simp [OptEquiv, Value.equiv]
        | vBool b => simp [OptEquiv, Value.equiv]
      · cases w with
        | vObj o =>
          cases v with
          | vObj n =>
            have hown : o.wf = true := by rwa [Value.wf] at hwwf
            have hnwf : n.wf = true := by rwa [Value.wf] at hvwf
            have hsz : sizeOf n < sizeOf B := by
              have hsz1 := Fields.lookup_sizeOf B k (Value.vObj n) hBk
              have hsz2 : sizeOf n < sizeOf (Value.vObj n) := by simp
              omega
            simp only [hv, if_false, updVal, mergeVal, mergeFields_append]
            simp [hv, updVal, mergeVal, mergeFields_append, OptEquiv]
            exact IH o n hsz hown hnwf
          | vInt n2 =>
            simp [hv, updVal, mergeVal, OptEquiv]
            exact equiv_refl _ hvwf
          | vStr s2 =>
            simp [hv, updVal, mergeVal, OptEquiv]
            exact equiv_refl _ hvwf
          | vBool b2 =>
            simp [hv, updVal, mergeVal, OptEquiv]
            exact equiv_refl _ hvwf
        | vInt n1 =>
          cases v <;> simp [hv, updVal, mergeVal, OptEquiv] <;>
            exact equiv_refl _ hvwf
        | vStr s1 =>
          cases v <;> simp [hv, updVal, mergeVal, OptEquiv] <;>
            exact equiv_refl _ hvwf
        | vBool b1 =>
          cases v <;> simp [hv, updVal, mergeVal, OptEquiv] <;>
            exact equiv_refl _ hvwf

theorem roundtrip_main (N : Nat) : ∀ (A B : Fields), sizeOf B ≤ N →
    A.wf = true → B.wf = true →
    Value.equiv (.vObj (apply A (diff A B))) (.vObj B) = true := by
  induction N with
  | zero =>
    intro A B hs _ _
    exact absurd hs (by have := Fields.one_le_sizeOf B; omega)
  | succ N ih =>
    intro A B hs hA hB
    have hRn : (apply A (diff A B)).nodupKeys := by
      rw [show apply A (diff A B)
            = removeAll (mergeFields (mergeFields A (diffAdded A B)) (diffUpdated A B))
                (diffRemoved A B) from rfl]
      exact nodupKeys_removeAll _ _
        (nodupKeys_mergeFields _ _
          (nodupKeys_mergeFields _ _ (Fields.wf_nodupKeys A hA)))
    apply equiv_vObj_of_pointwise _ _ hRn
    apply roundtrip_pointwise A B hA hB
    intro o n hsz ho hn
    exact ih o n (by omega) ho hn

end Contexts

namespace Contexts

theorem busStep_log (st : BusState) (op : BusOp) :
    ∃ l2, (busStep st op).log = st.log ++ l2 := by
  cases op with
  | upd name data => exact ⟨_, rfl⟩
  | setc name v => exact ⟨_, rfl⟩
  | sub name sid => exact ⟨_, rfl⟩
  | unsub name sid => exact ⟨[], (List.append_nil st.log).symm⟩

theorem busRun_log (ops : List BusOp) : ∀ (st : BusState),
    ∃ l2, (busRun st ops).log = st.log ++ l2 := by
  induction ops with
  | nil => intro st; exact ⟨[], (List.append_nil st.log).symm⟩
  | cons op ops1 ih =>
    intro st
    obtain ⟨l2, h2⟩ := busStep_log st op
    obtain ⟨l3, h3⟩ := ih (busStep st op)
    refine ⟨l2 ++ l3, ?_⟩
    rw [busRun, List.foldl_cons]
    rw [show List.foldl busStep (busStep st op) ops1 = busRun (busStep st op) ops1 from rfl]
    rw [h3, h2, List.append_assoc]

theorem deliveriesTo_append (sid : Nat) (name : String)
    (l1 l2 : List (Nat × String × ContextDelta)) :
    deliveriesTo sid name (l1 ++ l2) =
      deliveriesTo sid name l1 ++ deliveriesTo sid name l2 := by
  induction l1 with
  | nil => rw [List.nil_append, deliveriesTo, List.nil_append]
  | cons e rest ih =>
    obtain ⟨s, n, d⟩ := e
    by_cases h : s = sid ∧ n = name
    · simp [deliveriesTo, h, ih]
    · simp [deliveriesTo, h, ih]

theorem getSubs_setSubs_self (subs : List (String × List Nat)) (name : String)
    (ss : List Nat) : getSubs (setSubs subs name ss) name = ss := by
  induction subs with
  | nil => simp [setSubs, getSubs]
  | cons e rest ih =>
    obtain ⟨n, ss0⟩ := e
    by_cases h : n = name
    · simp [setSubs, getSubs, h]
    · simp [setSubs, getSubs, h, ih]

theorem setSubs_setSubs (subs : List (String × List Nat)) (name : String)
    (a b : List Nat) : setSubs (setSubs subs name a) name b = setSubs subs name b := by
  induction subs with
  | nil => simp [setSubs]
  | cons e rest ih =>
    obtain ⟨n, ss0⟩ := e
    by_cases h : n = name
    · simp [setSubs, h]
    · simp [setSubs, h, ih]

theorem filter_ne_idem (sid : Nat) (L : List Nat) :
    (L.filter (fun x => x != sid)).filter (fun x => x != sid)
      = L.filter (fun x => x != sid) := by
  induction L with
  | nil => rfl
  | cons x rest ih =>
    by_cases h : x = sid
    · have hb : (x != sid) = false := by simp [h]
      simp [List.filter_cons, hb, ih]
    · have hb : (x != sid) = true := by simp [h]
      simp [List.filter_cons, hb, ih]

end Contexts

namespace Activities

open Contexts

theorem ownersCount_append (a b : List AWindow) :
    ownersCount (a ++ b) = ownersCount a + ownersCount b := by
  rw [ownersCount, ownersCount, ownersCount, List.filter_append, List.length_append]

theorem ownersCount_map_false (ws : List AWindow) :
    ownersCount (ws.map (fun w => { w with isOwner := false })) = 0 := by
  induction ws with
  | nil => rfl
  | cons w rest ih =>
    rw [List.map_cons, ownersCount, List.filter_cons]
    simp only []
    rw [ownersCount] at ih
    simp [ih]

theorem ownersCount_filter_keep (ws : List AWindow) (q : AWindow → Bool) :
    ownersCount (ws.filter (fun w => w.isOwner || q w)) = ownersCount ws := by
  induction ws with
  | nil => rfl
  | cons w rest ih =>
    cases hw : w.isOwner
    · cases hq : q w
      · simp [ownersCount, List.filter_cons, hw, hq] at *
        exact ih
      · simp [ownersCount, List.filter_cons, hw, hq] at *
        exact ih
    · simp [ownersCount, List.filter_cons, hw] at *
      exact ih

theorem ownersCount_copyWins (ws : List AWindow) : ∀ (base : Nat),
    ownersCount (copyWins base ws) = ownersCount ws := by
  induction ws with
  | nil => intro base; rfl
  | cons w rest ih =>
    intro base
    cases hw : w.isOwner
    · simp [copyWins, ownersCount, List.filter_cons, hw] at *
      exact ih (base + 1)
    · simp [copyWins, ownersCount, List.filter_cons, hw] at *
      exact ih (base + 1)

theorem mem_replaceAct (acts : List Activity) (i : Nat) (a b : Activity)
    (h : b ∈ replaceAct acts i a) : b = a ∨ b ∈ acts := by
  rw [replaceAct] at h
  obtain ⟨c, hc, he⟩ := List.mem_map.mp h
  by_cases hi : c.id == i
  · rw [if_pos hi] at he
    exact Or.inl he.symm
  · rw [if_neg hi] at he
    exact Or.inr (he ▸ hc)

theorem lookupAct_mem (st : ASystem) (i : Nat) (a : Activity)
    (h : lookupAct st i = some a) : a ∈ st.acts ∧ a.id = i := by
  rw [lookupAct] at h
  refine ⟨List.mem_of_find?_eq_some h, ?_⟩
  have := List.find?_some h
  simpa using this

theorem findActByWindow_mem (st : ASystem) (wid : Nat) (a : Activity)
    (h : findActByWindow st wid = some a) : a ∈ st.acts := by
  rw [findActByWindow] at h
  exact List.mem_of_find?_eq_some h

theorem invSys_init : InvSys initA := by
  constructor
  · intro a ha
    simp [initA] at ha
  · intro d hd
    simp [initA] at hd

theorem invSys_step (st : ASystem) (op : AOp) (h : InvSys st) :
    InvSys (stepA st op) := by
  obtain ⟨hacts, hdesc⟩ := h
  cases op with
  | initiate ctx =>
    constructor
    · intro a ha
      rw [stepA, initiateA] at ha
      simp only [] at ha
      rcases List.mem_append.mp ha with h1 | h2
      · exact hacts a h1
      · simp at h2
        rw [h2]
        exact ⟨rfl, rfl⟩
    · intro d hd
      exact hdesc d hd
  | createWin i =>
    rw [stepA, createWindowA]
    cases hl : lookupAct st i with
    | none =>
      simp only []
      exact ⟨hacts, hdesc⟩
    | some a =>
      simp only []
      by_cases hr : a.status = AStatus.running
      · rw [if_pos hr]
        constructor
        · intro b hb
          rcases mem_replaceAct _ _ _ _ hb with h1 | h2
          · rw [h1]
            have ha := hacts a (lookupAct_mem st i a hl).1
            refine ⟨ha.1, ?_⟩
            rw [ownersCount_append, ha.2]
            rfl
          · exact hacts b h2
        · intro d hd
          exact hdesc d hd
      · rw [if_neg hr]
        exact ⟨hacts, hdesc⟩
  | closeWin wid =>
    rw [stepA, closeWindowA]
    cases hf : findActByWindow st wid with
    | none =>
      simp only []
      exact ⟨hacts, hdesc⟩
    | some a =>
      simp only []
      cases hw : a.windows.find? (fun w => w.id == wid) with
      | none => exact ⟨hacts, hdesc⟩
      | some w =>
        simp only []
        cases hwo : w.isOwner with
        | false =>
          rw [if_neg (by simp)]
          constructor
          · intro b hb
            rcases mem_replaceAct _ _ _ _ hb with h1 | h2
            · rw [h1]
              have ha := hacts a (findActByWindow_mem st wid a hf)
              refine ⟨ha.1, ?_⟩
              rw [ownersCount_filter_keep]
              exact ha.2
            · exact hacts b h2
          · intro d hd
            exact hdesc d hd
        | true =>
          rw [if_pos rfl]
          constructor
          · intro b hb
            exact hacts b (List.mem_of_mem_filter hb)
          · intro d hd
            exact hdesc d hd
  | updCtx i data =>
    rw [stepA]
    cases hu : updateContextA st i data with
    | error e =>
      simp only []
      exact ⟨hacts, hdesc⟩
    | ok st1 =>
      simp only []
      rw [updateContextA] at hu
      cases hl : lookupAct st i with
      | none => rw [hl] at hu; exact absurd hu (by simp)
      | some a =>
        rw [hl] at hu
        simp only [Except.ok.injEq] at hu
        rw [← hu]
        constructor
        · intro b hb
          simp only [] at hb
          rcases mem_replaceAct _ _ _ _ hb with h1 | h2
          · rw [h1]
            have ha := hacts a (lookupAct_mem st i a hl).1
            exact ⟨ha.1, ha.2⟩
          · exact hacts b h2
        · intro d hd
          exact hdesc d hd
  | attach srcId tgtId tag =>
    rw [stepA]
    cases hat : attachA st srcId tgtId tag with
    | error e =>
      simp only []
      exact ⟨hacts, hdesc⟩
    | ok p =>
      simp only []
      obtain ⟨st1, d1⟩ := p
      rw [attachA] at hat
      cases hs : lookupAct st srcId with
      | none => rw [hs] at hat; exact absurd hat (by simp)
      | some sa =>
        cases ht : lookupAct st tgtId with
        | none => rw [hs, ht] at hat; simp at hat
        | some ta =>
          rw [hs, ht] at hat
          simp only [] at hat
          by_cases hne : srcId = tgtId
          · rw [if_pos hne] at hat
            exact absurd hat (by simp)
          · rw [if_neg hne] at hat
            by_cases hrun : sa.status = AStatus.running ∧ ta.status = AStatus.running
            · rw [if_pos hrun] at hat
              simp only [Except.ok.injEq, Prod.mk.injEq] at hat
              rw [← hat.1]
              constructor
              · intro b hb
                simp only [] at hb
                have hb2 := List.mem_of_mem_filter hb
                rcases mem_replaceAct _ _ _ _ hb2 with h1 | h2
                · rw [h1]
                  have hta := hacts ta (lookupAct_mem st tgtId ta ht).1
                  refine ⟨hta.1, ?_⟩
                  rw [ownersCount_append, hta.2, ownersCount_map_false]
                · exact hacts b h2
              · intro d hd
                simp only [] at hd
                rcases List.mem_append.mp hd with h1 | h2
                · exact hdesc d h1
                · simp at h2
                  rw [h2]
                  simp only []
                  exact (hacts sa (lookupAct_mem st srcId sa hs).1).2
            · rw [if_neg hrun] at hat
              exact absurd hat (by simp)
  | detach idx =>
    rw [stepA]
    cases hg : st.descriptors.get? idx with
    | none =>
      simp only []
      exact ⟨hacts, hdesc⟩
    | some d =>
      simp only []
      have hdmem : d ∈ st.descriptors := by
        obtain ⟨hlt, hget⟩ := List.get?_eq_some.mp hg
        rw [← hget]
        exact List.get_mem _ _ _
      rw [detachA]
      constructor
      · intro b hb
        simp only [] at hb
        rcases List.mem_append.mp hb with h1 | h2
        · cases hl : lookupAct st d.ownerId with
          | none =>
            rw [hl] at h1
            simp only [] at h1
            exact hacts b h1
          | some t =>
            rw [hl] at h1
            simp only [] at h1
            rcases mem_replaceAct _ _ _ _ h1 with h3 | h4
            · rw [h3]
              have hta := hacts t (lookupAct_mem st d.ownerId t hl).1
              refine ⟨hta.1, ?_⟩
              rw [ownersCount_filter_keep]
              exact hta.2
            · exact hacts b h4
        · simp at h2
          rw [h2]
          exact ⟨rfl, hdesc d hdmem⟩
      · intro d2 hd2
        exact hdesc d2 hd2
  | clone i =>
    rw [stepA, cloneA]
    cases hl : lookupAct st i with
    | none =>
      simp only []
      exact ⟨hacts, hdesc⟩
    | some a =>
      simp only []
      by_cases hr : a.status = AStatus.running
      · rw [if_pos hr]
        constructor
        · intro b hb
          simp only [] at hb
          rcases List.mem_append.mp hb with h1 | h2
          · exact hacts b h1
          · simp at h2
            rw [h2]
            refine ⟨rfl, ?_⟩
            rw [ownersCount_copyWins]
            exact (hacts a (lookupAct_mem st i a hl).1).2
        · intro d hd
          exact hdesc d hd
      · rw [if_neg hr]
        exact ⟨hacts, hdesc⟩

theorem invSys_foldl (ops : List AOp) : ∀ (st : ASystem), InvSys st →
    InvSys (ops.foldl stepA st) := by
  induction ops with
  | nil => intro st h; exact h
  | cons op ops1 ih =>
    intro st h
    rw [List.foldl_cons]
    exact ih (stepA st op) (invSys_step st op h)

theorem invSys_runA (ops : List AOp) : InvSys (runA ops) :=
  invSys_foldl ops initA invSys_init

end Activities

namespace Activities

theorem ownersCount_zero (ws : List AWindow) (h : ownersCount ws = 0) :
    ∀ w ∈ ws, w.isOwner = false := by
  intro w hw
  rw [ownersCount, List.length_eq_zero] at h
  cases hwo : w.isOwner
  · rfl
  · have : w ∈ ws.filter (fun x => x.isOwner) := List.mem_filter.mpr ⟨hw, hwo⟩
    rw [h] at this
    simp at this

theorem find_owner_of_count_one (ws : List AWindow) (h : ownersCount ws = 1) :
    ∃ w, ws.find? (fun x => x.isOwner) = some w ∧ w ∈ ws ∧ w.isOwner = true ∧
      ∀ w2 ∈ ws, w2.isOwner = true → w2 = w := by
  induction ws with
  | nil => simp [ownersCount] at h
  | cons w0 rest ih =>
    cases hwo : w0.isOwner with
    | true =>
      have hz : ownersCount rest = 0 := by
        rw [ownersCount, List.filter_cons] at h
        simp only [hwo, if_true, List.length_cons] at h
        rw [ownersCount]
        omega
      refine ⟨w0, ?_, List.mem_cons_self _ _, hwo, ?_⟩
      · rw [List.find?_cons, hwo]
      · intro w2 hw2 hw2o
        rcases List.mem_cons.mp hw2 with h1 | h2
        · exact h1
        · exact absurd hw2o (by rw [ownersCount_zero rest hz w2 h2]; simp)
    | false =>
      have h1 : ownersCount rest = 1 := by
        rw [ownersCount, List.filter_cons] at h
        simp only [hwo, Bool.false_eq_true, if_false] at h
        rw [ownersCount]
        exact h
      obtain ⟨w, hf, hm, hw, hu⟩ := ih h1
      refine ⟨w, ?_, List.mem_cons_of_mem _ hm, hw, ?_⟩
      · rw [List.find?_cons, hwo]
        exact hf
      · intro w2 hw2 hw2o
        rcases List.mem_cons.mp hw2 with h2 | h3
        · rw [h2] at hw2o
          rw [hw2o] at hwo
          exact absurd hwo (by simp)
        · exact hu w2 h3 hw2o

theorem find?_filter_id_ne (l : List Activity) (i : Nat) :
    (l.filter (fun b => !(b.id == i))).find? (fun b => b.id == i) = none := by
  induction l with
  | nil => rfl
  | cons a rest ih =>
    by_cases hi : a.id = i
    · rw [List.filter_cons, if_neg (by simp [hi])]
      exact ih
    · rw [List.filter_cons, if_pos (by simp [hi])]
      rw [List.find?_cons, show (a.id == i) = false from by simp [hi]]
      exact ih

theorem find?_replaceAct_filter (acts : List Activity) (srcId tgtId : Nat)
    (t t1 : Activity) (hlt : acts.find? (fun b => b.id == tgtId) = some t)
    (hid : t1.id = tgtId) (hne : tgtId ≠ srcId) :
    ((replaceAct acts tgtId t1).filter (fun b => !(b.id == srcId))).find?
      (fun b => b.id == tgtId) = some t1 := by
  induction acts with
  | nil => simp [List.find?] at hlt
  | cons a rest ih =>
    by_cases hi : a.id = tgtId
    · rw [replaceAct, List.map_cons, if_pos (by simp [hi])]
      rw [List.filter_cons, if_pos (by simp [hid, hne])]
      rw [List.find?_cons, show (t1.id == tgtId) = true from by simp [hid]]
    · rw [List.find?_cons, show (a.id == tgtId) = false from by simp [hi]] at hlt
      rw [replaceAct, List.map_cons, if_neg (by simp [hi])]
      rw [List.filter_cons]
      by_cases hs : a.id = srcId
      · rw [if_neg (by simp [hs])]
        exact ih hlt
      · rw [if_pos (by simp [hs])]
        rw [List.find?_cons, show (a.id == tgtId) = false from by simp [hi]]
        exact ih hlt

theorem find?_append_fresh (acts : List Activity) (aid : Nat) (r : Activity)
    (hfresh : ∀ a ∈ acts, a.id ≠ aid) (hr : r.id = aid) :
    (acts ++ [r]).find? (fun b => b.id == aid) = some r := by
  induction acts with
  | nil =>
    rw [List.nil_append, List.find?_cons, show (r.id == aid) = true from by simp [hr]]
  | cons a rest ih =>
    rw [List.cons_append, List.find?_cons,
        show (a.id == aid) = false from by simp [hfresh a (List.mem_cons_self a rest)]]
    exact ih (fun b hb => hfresh b (List.mem_cons_of_mem a hb))

end Activities

namespace Contexts

theorem Fields.lookup_append (fs gs : Fields) (k : String) :
    (Fields.append fs gs).lookup k =
      match fs.lookup k with
      | some v => some v
      | none => gs.lookup k := by
  induction fs using Fields.inductionOn with
  | nil => rw [Fields.append, Fields.lookup]
  | cons k0 v0 rest ih =>
    by_cases h0 : k0 = k
    · rw [Fields.append, Fields.lookup, if_pos h0, Fields.lookup, if_pos h0]
    · rw [Fields.append, Fields.lookup, if_neg h0, Fields.lookup, if_neg h0, ih]

end Contexts

namespace GlueService

theorem randomEndIndex_le_eight (q : Rat) (h0 : 0 ≤ q) (h1 : q < 1) :
    randomEndIndex q ≤ 8 := by
  have hlen : ((portfolioInstrumentsList.length : Nat) : Rat) = 9 := by
    norm_num [portfolioInstrumentsList]
  rw [randomEndIndex, hlen]
  have hq9 : q * (9 : Rat) < 9 := by nlinarith
  have hfl : Rat.floor (q * (9 : Rat)) ≤ 8 := by
    by_contra hc
    push_neg at hc
    have h9 : (9 : Int) ≤ Rat.floor (q * (9 : Rat)) := by omega
    have h9q := Rat.le_floor.mp h9
    push_cast at h9q
    linarith
  omega

end GlueService

namespace Contexts

/-- C1: Delta Engine round-trip law — for every pair of well-formed context
value-trees A and B, applying the delta computed by `diff A B` (added keys
taken from B, updated keys diffed recursively, removed keys path-qualified)
to A yields exactly B, as value-trees (JS deep equality of objects, which
compares mappings by key). -/
theorem diff_apply_roundtrip (A B : Fields) (hA : A.wf = true)
    (hB : B.wf = true) :
    Value.equiv (.vObj (apply A (diff A B))) (.vObj B) = true :=
  roundtrip_main (sizeOf B) A B le_rfl hA hB

/-- Witness for C1 at a concrete pair of nested value-trees. -/
theorem diff_apply_roundtrip_witness :
    (mkFields [("a", .vInt 1),
               ("b", .vObj (mkFields [("x", .vInt 1), ("y", .vInt 2)]))]).wf = true
    ∧ (mkFields [("b", .vObj (mkFields [("x", .vInt 2), ("z", .vInt 3)])),
                 ("c", .vInt 5)]).wf = true
    ∧ Value.equiv
        (.vObj (apply
          (mkFields [("a", .vInt 1),
                     ("b", .vObj (mkFields [("x", .vInt 1), ("y", .vInt 2)]))])
          (diff
            (mkFields [("a", .vInt 1),
                       ("b", .vObj (mkFields [("x", .vInt 1), ("y", .vInt 2)]))])
            (mkFields [("b", .vObj (mkFields [("x", .vInt 2), ("z", .vInt 3)])),
                       ("c", .vInt 5)]))))
        (.vObj (mkFields [("b", .vObj (mkFields [("x", .vInt 2), ("z", .vInt 3)])),
                          ("c", .vInt 5)])) = true :=
  ⟨by decide, by decide,
   diff_apply_roundtrip _ _ (by decide) (by decide)⟩

/-- C2: updating the non-existent context "theme" with
`{font:10, "font-family":"Arial"}` creates it at version 1 with exactly that
value; a subsequent update with `{font:11}` yields version 2, value
`{font:11, "font-family":"Arial"}` and a delta equal to `{updated:{font:11}}`
(its other components empty). -/
theorem update_theme_scenario :
    storeGet (update [] "theme"
        [("font", some (.vInt 10)), ("font-family", some (.vStr "Arial"))]).1 "theme"
      = some { value := mkFields [("font", .vInt 10), ("font-family", .vStr "Arial")]
               version := 1 }
    ∧ storeGet (update (update [] "theme"
          [("font", some (.vInt 10)), ("font-family", some (.vStr "Arial"))]).1
          "theme" [("font", some (.vInt 11))]).1 "theme"
      = some { value := mkFields [("font", .vInt 11), ("font-family", .vStr "Arial")]
               version := 2 }
    ∧ (update (update [] "theme"
          [("font", some (.vInt 10)), ("font-family", some (.vStr "Arial"))]).1
          "theme" [("font", some (.vInt 11))]).2
      = { added := .nil, updated := .cons "font" (.vInt 11) .nil
          removed := [], reset := none } := by
  refine ⟨?_, ?_, ?_⟩ <;> decide

/-- C8: the unsubscribe token of the Subscription Router is idempotent —
invoking it a second time with the same handle raises no error, removes
nothing further and produces no delivery: the whole bus state after the
second call equals the state after the first call. -/
theorem unsubscribe_twice_noop (st : BusState) (name : String) (sid : Nat) :
    busUnsubscribe (busUnsubscribe st name sid) name sid
      = busUnsubscribe st name sid := by
  rw [busUnsubscribe, busUnsubscribe]
  simp only [getSubs_setSubs_self, setSubs_setSubs, filter_ne_idem]

end Contexts

namespace Activities

open Contexts

/-- C3: in `updateContext`, an explicit null (tombstone) on a key removes
the key rather than setting it to null: for any activity whose context is
`{a:1, b:2, c:3}`, `updateContext {b:3, c:null}` results in the context
`{a:1, b:3}`. -/
theorem updateContext_null_tombstone (a : Activity)
    (h : a.context = mkFields [("a", .vInt 1), ("b", .vInt 2), ("c", .vInt 3)]) :
    (a.updateContext [("b", some (.vInt 3)), ("c", none)]).context
      = mkFields [("a", .vInt 1), ("b", .vInt 3)] := by
  rw [show (a.updateContext [("b", some (.vInt 3)), ("c", none)]).context
        = mergeUpdate a.context [("b", some (.vInt 3)), ("c", none)] from rfl]
  rw [h]
  decide

/-- Witness for C3 at a concrete activity. -/
theorem updateContext_null_tombstone_witness :
    ({ id := 0, status := .running
       context := mkFields [("a", .vInt 1), ("b", .vInt 2), ("c", .vInt 3)]
       windows := [] } : Activity).context
        = mkFields [("a", .vInt 1), ("b", .vInt 2), ("c", .vInt 3)]
    ∧ (({ id := 0, status := .running
          context := mkFields [("a", .vInt 1), ("b", .vInt 2), ("c", .vInt 3)]
          windows := [] } : Activity).updateContext
            [("b", some (.vInt 3)), ("c", none)]).context
        = mkFields [("a", .vInt 1), ("b", .vInt 3)] :=
  ⟨rfl, updateContext_null_tombstone _ rfl⟩

end Activities

namespace Contexts

/-- C4: a subscriber that subscribes to an existing context receives, as its
first delivery, a synthetic reset delta whose `reset` field equals the
current authoritative value at subscription time — never a partial
(added/updated/removed) delta — and the deltas of any subsequent operations
are streamed after it. -/
theorem subscribe_first_delivery_reset (st : BusState) (name : String)
    (sid : Nat) (ops : List BusOp) (r : CtxRecord)
    (hex : storeGet st.store name = some r)
    (hfresh : deliveriesTo sid name st.log = []) :
    ∃ rest, deliveriesTo sid name (busRun (busSubscribe st name sid) ops).log
        = resetDelta r.value :: rest
      ∧ (resetDelta r.value).reset = some r.value
      ∧ (resetDelta r.value).added = .nil
      ∧ (resetDelta r.value).updated = .nil
      ∧ (resetDelta r.value).removed = [] := by
  obtain ⟨l2, h2⟩ := busRun_log ops (busSubscribe st name sid)
  refine ⟨deliveriesTo sid name l2, ?_, rfl, rfl, rfl, rfl⟩
  rw [h2]
  rw [show (busSubscribe st name sid).log
        = st.log ++ [(sid, name, resetDelta r.value)] from by
    rw [busSubscribe]
    simp only [hex]
    rfl]
  rw [deliveriesTo_append, deliveriesTo_append, hfresh]
  rw [show deliveriesTo sid name [(sid, name, resetDelta r.value)]
        = [resetDelta r.value] from by simp [deliveriesTo]]
  rw [List.nil_append]
  rfl

/-- Witness for C4: a fresh subscriber to an existing "portfolio" context,
followed by a further update. -/
theorem subscribe_first_delivery_reset_witness :
    storeGet (BusState.mk
        [("portfolio", CtxRecord.mk (mkFields [("portfolioId", .vInt 1)]) 1)]
        [] []).store "portfolio"
      = some (CtxRecord.mk (mkFields [("portfolioId", .vInt 1)]) 1)
    ∧ deliveriesTo 0 "portfolio"
        (BusState.mk
          [("portfolio", CtxRecord.mk (mkFields [("portfolioId", .vInt 1)]) 1)]
          [] []).log = []
    ∧ ∃ rest,
        deliveriesTo 0 "portfolio"
          (busRun (busSubscribe (BusState.mk
              [("portfolio", CtxRecord.mk (mkFields [("portfolioId", .vInt 1)]) 1)]
              [] []) "portfolio" 0)
            [.upd "portfolio" [("portfolioId", some (.vInt 2))]]).log
        = resetDelta (mkFields [("portfolioId", .vInt 1)]) :: rest
      ∧ (resetDelta (mkFields [("portfolioId", .vInt 1)])).reset
          = some (mkFields [("portfolioId", .vInt 1)])
      ∧ (resetDelta (mkFields [("portfolioId", .vInt 1)])).added = .nil
      ∧ (resetDelta (mkFields [("portfolioId", .vInt 1)])).updated = .nil
      ∧ (resetDelta (mkFields [("portfolioId", .vInt 1)])).removed = [] :=
  ⟨rfl, rfl,
   subscribe_first_delivery_reset
     (BusState.mk
       [("portfolio", CtxRecord.mk (mkFields [("portfolioId", .vInt 1)]) 1)]
       [] []) "portfolio" 0
     [.upd "portfolio" [("portfolioId", some (.vInt 2))]]
     (CtxRecord.mk (mkFields [("portfolioId", .vInt 1)]) 1) rfl rfl⟩

end Contexts

namespace Activities

open Contexts

/-- C5: in every state reachable by a sequence of operations (initiate,
createWindow, closeWindow, updateContext, attach, detach, clone), every
activity whose status is Running has exactly one window flagged as owner,
and that window is the activity's `owner`. -/
theorem running_activity_single_owner (ops : List AOp) (a : Activity)
    (ha : a ∈ (runA ops).acts) (hr : a.status = AStatus.running) :
    ownersCount a.windows = 1
    ∧ ∃ w, a.owner = some w ∧ w ∈ a.windows ∧ w.isOwner = true
        ∧ ∀ w2 ∈ a.windows, w2.isOwner = true → w2 = w := by
  have hc := ((invSys_runA ops).1 a ha).2
  refine ⟨hc, ?_⟩
  obtain ⟨w, hf, hm, hw, hu⟩ := find_owner_of_count_one a.windows hc
  refine ⟨w, ?_, hm, hw, hu⟩
  rw [Activity.owner]
  exact hf

/-- Witness for C5: an activity started and extended with a helper window.
-/
theorem running_activity_single_owner_witness :
    (Activity.mk 0 .running (mkFields [("x", .vInt 1)])
        [AWindow.mk 0 true, AWindow.mk 1 false])
      ∈ (runA [.initiate (mkFields [("x", .vInt 1)]), .createWin 0]).acts
    ∧ ownersCount (Activity.mk 0 .running (mkFields [("x", .vInt 1)])
        [AWindow.mk 0 true, AWindow.mk 1 false]).windows = 1 :=
  ⟨by decide,
   (running_activity_single_owner [.initiate (mkFields [("x", .vInt 1)]), .createWin 0]
     _ (by decide) rfl).1⟩

end Activities

namespace GlueService

open Contexts

/-- C9: for every random draw in the unit interval, `fetchInstrument`
updates the context named "ric" with the wrapper object nesting the drawn
instrument under the single key "context" (the shape `updateContext` always
produces), and the drawn index is between 0 and 8, so the access into the
nine-entry portfolio list never goes out of bounds. -/
theorem fetchInstrument_wraps_and_in_bounds (q : Rat) (h0 : 0 ≤ q)
    (h1 : q < 1) :
    randomEndIndex q ≤ 8
    ∧ ∃ ins, portfolioInstrumentsList.get? (randomEndIndex q) = some ins
        ∧ fetchInstrumentCall q = some (updateContextCall "ric" (instrumentValue ins))
        ∧ updateContextCall "ric" (instrumentValue ins)
            = ("ric", Fields.cons "context" (instrumentValue ins) Fields.nil) := by
  have hidx := randomEndIndex_le_eight q h0 h1
  have hlt : randomEndIndex q < portfolioInstrumentsList.length := by
    rw [show portfolioInstrumentsList.length = 9 from rfl]
    omega
  refine ⟨hidx, portfolioInstrumentsList.get ⟨randomEndIndex q, hlt⟩,
    List.get?_eq_get hlt, ?_, rfl⟩
  rw [fetchInstrumentCall, List.get?_eq_get hlt]
  rfl

/-- Witness for C9 at the draw one half, which selects index 4. -/
theorem fetchInstrument_wraps_and_in_bounds_witness :
    (0 : Rat) ≤ 1/2 ∧ (1/2 : Rat) < 1
    ∧ (randomEndIndex (1/2) ≤ 8
      ∧ ∃ ins, portfolioInstrumentsList.get? (randomEndIndex (1/2)) = some ins
          ∧ fetchInstrumentCall (1/2)
              = some (updateContextCall "ric" (instrumentValue ins))
          ∧ updateContextCall "ric" (instrumentValue ins)
              = ("ric", Fields.cons "context" (instrumentValue ins) Fields.nil)) :=
  ⟨by norm_num, by norm_num,
   fetchInstrument_wraps_and_in_bounds (1/2) (by norm_num) (by norm_num)⟩

/-- C10: for every random draw in the unit interval,
`getRandomInstrumentsList` returns a prefix of the fixed nine-entry
portfolio list of length at most 8 — it never returns the full list and the
last entry `{ric:"GOOGL:US"}` is never included — and the draw zero returns
the empty list. -/
theorem getRandomInstrumentsList_proper_slice (q : Rat) (h0 : 0 ≤ q)
    (h1 : q < 1) :
    (∃ n, n ≤ 8 ∧ getRandomInstrumentsList q = portfolioInstrumentsList.take n)
    ∧ (getRandomInstrumentsList q).length ≤ 8
    ∧ getRandomInstrumentsList q ≠ portfolioInstrumentsList
    ∧ ({ ric := "GOOGL:US" } : Instrument) ∉ getRandomInstrumentsList q
    ∧ getRandomInstrumentsList 0 = [] := by
  have hidx := randomEndIndex_le_eight q h0 h1
  refine ⟨⟨randomEndIndex q, hidx, rfl⟩, ?_, ?_, ?_, ?_⟩
  · rw [getRandomInstrumentsList, List.length_take]
    rw [show portfolioInstrumentsList.length = 9 from rfl]
    omega
  · intro hcon
    have hlc := congrArg List.length hcon
    rw [getRandomInstrumentsList, List.length_take] at hlc
    rw [show portfolioInstrumentsList.length = 9 from rfl] at hlc
    omega
  · intro hmem
    have hmem8 : ({ ric := "GOOGL:US" } : Instrument)
        ∈ portfolioInstrumentsList.take 8 := by
      have hsub : getRandomInstrumentsList q ⊆ portfolioInstrumentsList.take 8 := by
        rw [getRandomInstrumentsList,
            show portfolioInstrumentsList.take (randomEndIndex q)
              = (portfolioInstrumentsList.take 8).take (randomEndIndex q) from by
            rw [List.take_take, min_eq_left hidx]]
        exact List.take_subset _ _
      exact hsub hmem
    revert hmem8
    decide
  · rw [getRandomInstrumentsList,
        show randomEndIndex 0 = 0 from by norm_num [randomEndIndex, Rat.floor],
        List.take_zero]

/-- Witness for C10 at the draw one half. -/
theorem getRandomInstrumentsList_proper_slice_witness :
    (0 : Rat) ≤ 1/2 ∧ (1/2 : Rat) < 1
    ∧ ((∃ n, n ≤ 8
          ∧ getRandomInstrumentsList (1/2) = portfolioInstrumentsList.take n)
      ∧ (getRandomInstrumentsList (1/2)).length ≤ 8
      ∧ getRandomInstrumentsList (1/2) ≠ portfolioInstrumentsList
      ∧ ({ ric := "GOOGL:US" } : Instrument) ∉ getRandomInstrumentsList (1/2)
      ∧ getRandomInstrumentsList 0 = []) :=
  ⟨by norm_num, by norm_num,
   getRandomInstrumentsList_proper_slice (1/2) (by norm_num) (by norm_num)⟩

end GlueService

namespace Activities

open Contexts

/-- C6: when the owner window of a Running activity closes, the activity
transitions through Stopping to Stopped (both appended to the status log,
in that order), every remaining helper window receives a close
notification, the activity is removed from the registry, and every
subsequent `updateContext` against it fails with ActivityNotFound. -/
theorem owner_close_stops_activity (st : ASystem) (a : Activity) (w : AWindow)
    (hf : findActByWindow st w.id = some a)
    (hw : a.windows.find? (fun x => x.id == w.id) = some w)
    (hown : w.isOwner = true) (hrun : a.status = AStatus.running) :
    lookupAct (closeWindowA st w.id) a.id = none
    ∧ (closeWindowA st w.id).statusLog
        = st.statusLog ++ [(a.id, AStatus.stopping), (a.id, AStatus.stopped)]
    ∧ (closeWindowA st w.id).closeNotices
        = st.closeNotices
            ++ (a.windows.filter (fun x => !x.isOwner)).map (fun x => x.id)
    ∧ ∀ data, updateContextA (closeWindowA st w.id) a.id data
        = .error .activityNotFound := by
  have hstep : closeWindowA st w.id =
      { st with
        acts := st.acts.filter (fun b => !(b.id == a.id))
        statusLog := st.statusLog ++ [(a.id, AStatus.stopping), (a.id, AStatus.stopped)]
        closeNotices := st.closeNotices
          ++ (a.windows.filter (fun x => !x.isOwner)).map (fun x => x.id) } := by
    rw [closeWindowA]
    simp only [hf, hw]
    rw [if_pos hown]
  have hnone : lookupAct (closeWindowA st w.id) a.id = none := by
    rw [hstep, lookupAct]
    exact find?_filter_id_ne st.acts a.id
  refine ⟨hnone, by rw [hstep], by rw [hstep], ?_⟩
  intro data
  rw [updateContextA]
  simp only [hnone]

/-- Witness for C6: closing the owner window of an activity with two helper
windows. -/
theorem owner_close_stops_activity_witness :
    lookupAct (closeWindowA (runA [.initiate Fields.nil, .createWin 0, .createWin 0]) 0) 0 = none
    ∧ (closeWindowA (runA [.initiate Fields.nil, .createWin 0, .createWin 0]) 0).statusLog
        = (runA [.initiate Fields.nil, .createWin 0, .createWin 0]).statusLog
            ++ [(0, AStatus.stopping), (0, AStatus.stopped)]
    ∧ (closeWindowA (runA [.initiate Fields.nil, .createWin 0, .createWin 0]) 0).closeNotices
        = (runA [.initiate Fields.nil, .createWin 0, .createWin 0]).closeNotices ++ [1, 2]
    ∧ updateContextA (closeWindowA (runA [.initiate Fields.nil, .createWin 0, .createWin 0]) 0)
        0 [("z", some (.vInt 1))] = .error .activityNotFound := by
  have h := owner_close_stops_activity
    (runA [.initiate Fields.nil, .createWin 0, .createWin 0])
    (Activity.mk 0 .running Fields.nil
      [AWindow.mk 0 true, AWindow.mk 1 false, AWindow.mk 2 false])
    (AWindow.mk 0 true) (by decide) (by decide) rfl rfl
  exact ⟨h.1, h.2.1, h.2.2.1, h.2.2.2 [("z", some (.vInt 1))]⟩

/-- C7: `attach` merges the source activity's context onto the target's
with the target winning on every conflicting key, moves the source windows
into the target, stops and removes the source, and returns a descriptor
from which `detach` reconstructs a running activity with the source's
pre-merge context and its original window set. -/
theorem attach_merge_detach_restore (st : ASystem) (s t : Activity)
    (srcId tgtId : Nat) (tag : Fields)
    (hs : lookupAct st srcId = some s) (ht : lookupAct st tgtId = some t)
    (hne : srcId ≠ tgtId) (hsr : s.status = AStatus.running)
    (htr : t.status = AStatus.running)
    (hfresh : ∀ a ∈ st.acts, a.id < st.nextActId) :
    ∃ st1 d, attachA st srcId tgtId tag = .ok (st1, d)
      ∧ (∃ t1, lookupAct st1 tgtId = some t1
          ∧ t1.context = attachMerge t.context s.context
          ∧ t1.windows = t.windows ++ s.windows.map (fun w => { w with isOwner := false }))
      ∧ (∀ k, Fields.lookup k (attachMerge t.context s.context)
            = (match Fields.lookup k t.context with
               | some v => some v
               | none => Fields.lookup k s.context))
      ∧ lookupAct st1 srcId = none
      ∧ (srcId, AStatus.stopped) ∈ st1.statusLog
      ∧ d.context = s.context ∧ d.windows = s.windows
      ∧ (∃ r, lookupAct (detachA st1 d).1 (detachA st1 d).2 = some r
           ∧ r.context = s.context ∧ r.windows = s.windows
           ∧ r.status = AStatus.running) := by
  have htid : t.id = tgtId := (lookupAct_mem st tgtId t ht).2
  refine ⟨{ st with
      acts := (replaceAct st.acts tgtId
        { t with
          context := attachMerge t.context s.context
          windows := t.windows ++ s.windows.map (fun w => { w with isOwner := false }) }).filter
        (fun b => !(b.id == srcId))
      descriptors := st.descriptors
        ++ [AttachedActivityDescriptor.mk tgtId s.windows s.context tag]
      statusLog := st.statusLog ++ [(srcId, AStatus.stopped)] },
    AttachedActivityDescriptor.mk tgtId s.windows s.context tag,
    ?_, ?_, ?_, ?_, ?_, rfl, rfl, ?_⟩
  · rw [attachA]
    simp only [hs, ht]
    rw [if_neg hne, if_pos ⟨hsr, htr⟩]
  · refine ⟨{ t with
        context := attachMerge t.context s.context
        windows := t.windows ++ s.windows.map (fun w => { w with isOwner := false }) },
      ?_, rfl, rfl⟩
    rw [lookupAct]
    exact find?_replaceAct_filter st.acts srcId tgtId t _ ht htid (Ne.symm hne)
  · intro k
    rw [attachMerge, Fields.lookup_append]
    cases htk : Fields.lookup k t.context with
    | some v => rfl
    | none =>
      have hhk : t.context.hasKey k = false := by
        rw [Fields.hasKey, htk]
        rfl
      rw [lookup_diffAdded, hhk]
      simp
  · rw [lookupAct]
    exact find?_filter_id_ne _ srcId
  · simp
  · have hfilterfresh : ∀ b ∈ (replaceAct st.acts tgtId
        { t with
          context := attachMerge t.context s.context
          windows := t.windows ++ s.windows.map (fun w => { w with isOwner := false }) }).filter
        (fun b => !(b.id == srcId)), b.id < st.nextActId := by
      intro b hb
      rcases mem_replaceAct _ _ _ _ (List.mem_of_mem_filter hb) with h1 | h2
      · rw [h1]
        rw [show ({ t with
            context := attachMerge t.context s.context
            windows := t.windows ++ s.windows.map (fun w => { w with isOwner := false }) }
              : Activity).id = t.id from rfl]
        exact hfresh t (lookupAct_mem st tgtId t ht).1
      · exact hfresh b h2
    rw [detachA]
    simp only []
    have hlt1 : lookupAct
        ({ st with
           acts := (replaceAct st.acts tgtId
             { t with
               context := attachMerge t.context s.context
               windows := t.windows ++ s.windows.map (fun w => { w with isOwner := false }) }).filter
             (fun b => !(b.id == srcId))
           descriptors := st.descriptors
             ++ [AttachedActivityDescriptor.mk tgtId s.windows s.context tag]
           statusLog := st.statusLog ++ [(srcId, AStatus.stopped)] } : ASystem) tgtId
        = some { t with
            context := attachMerge t.context s.context
            windows := t.windows ++ s.windows.map (fun w => { w with isOwner := false }) } := by
      rw [lookupAct]
      exact find?_replaceAct_filter st.acts srcId tgtId t _ ht htid (Ne.symm hne)
    simp only [hlt1]
    refine ⟨Activity.mk st.nextActId AStatus.running s.context s.windows, ?_, rfl, rfl, rfl⟩
    rw [lookupAct]
    apply find?_append_fresh
    · intro b hb
      rcases mem_replaceAct _ _ _ _ hb with h1 | h2
      · rw [h1]
        have : t.id < st.nextActId := hfresh t (lookupAct_mem st tgtId t ht).1
        simp only []
        omega
      · have := hfilterfresh b ?_
        · omega
        · exact h2
    · rfl

end Activities

namespace Activities

open Contexts

/-- Witness for C7: the spec scenario — target context `x:1`, source context
`x:2, y:3`, merged context `x:1, y:3` (target wins), source stopped, detach
restores the source context and window set. -/
theorem attach_merge_detach_restore_witness :
    attachMerge (mkFields [("x", .vInt 1)]) (mkFields [("x", .vInt 2), ("y", .vInt 3)])
      = mkFields [("x", .vInt 1), ("y", .vInt 3)]
    ∧ (∃ st1 d, attachA (runA [.initiate (mkFields [("x", .vInt 1)]),
          .initiate (mkFields [("x", .vInt 2), ("y", .vInt 3)])]) 1 0 Fields.nil
          = .ok (st1, d)
        ∧ (∃ t1, lookupAct st1 0 = some t1
            ∧ t1.context = attachMerge
                (Activity.mk 0 .running (mkFields [("x", .vInt 1)])
                  [AWindow.mk 0 true]).context
                (Activity.mk 1 .running (mkFields [("x", .vInt 2), ("y", .vInt 3)])
                  [AWindow.mk 1 true]).context
            ∧ t1.windows = (Activity.mk 0 .running (mkFields [("x", .vInt 1)])
                  [AWindow.mk 0 true]).windows
                ++ (Activity.mk 1 .running (mkFields [("x", .vInt 2), ("y", .vInt 3)])
                  [AWindow.mk 1 true]).windows.map (fun w => { w with isOwner := false }))
        ∧ (∀ k, Fields.lookup k (attachMerge
              (Activity.mk 0 .running (mkFields [("x", .vInt 1)])
                [AWindow.mk 0 true]).context
              (Activity.mk 1 .running (mkFields [("x", .vInt 2), ("y", .vInt 3)])
                [AWindow.mk 1 true]).context)
            = (match Fields.lookup k (Activity.mk 0 .running (mkFields [("x", .vInt 1)])
                  [AWindow.mk 0 true]).context with
               | some v => some v
               | none => Fields.lookup k (Activity.mk 1 .running
                    (mkFields [("x", .vInt 2), ("y", .vInt 3)])
                    [AWindow.mk 1 true]).context))
        ∧ lookupAct st1 1 = none
        ∧ (1, AStatus.stopped) ∈ st1.statusLog
        ∧ d.context = (Activity.mk 1 .running (mkFields [("x", .vInt 2), ("y", .vInt 3)])
            [AWindow.mk 1 true]).context
        ∧ d.windows = (Activity.mk 1 .running (mkFields [("x", .vInt 2), ("y", .vInt 3)])
            [AWindow.mk 1 true]).windows
        ∧ (∃ r, lookupAct (detachA st1 d).1 (detachA st1 d).2 = some r
             ∧ r.context = (Activity.mk 1 .running
                  (mkFields [("x", .vInt 2), ("y", .vInt 3)]) [AWindow.mk 1 true]).context
             ∧ r.windows = (Activity.mk 1 .running
                  (mkFields [("x", .vInt 2), ("y", .vInt 3)]) [AWindow.mk 1 true]).windows
             ∧ r.status = AStatus.running)) :=
  ⟨by decide,
   attach_merge_detach_restore
     (runA [.initiate (mkFields [("x", .vInt 1)]),
        .initiate (mkFields [("x", .vInt 2), ("y", .vInt 3)])])
     (Activity.mk 1 .running (mkFields [("x", .vInt 2), ("y", .vInt 3)]) [AWindow.mk 1 true])
     (Activity.mk 0 .running (mkFields [("x", .vInt 1)]) [AWindow.mk 0 true])
     1 0 Fields.nil (by decide) (by decide) (by decide) rfl rfl (by decide)⟩

end Activities
